import Mathlib

/-!
MeloSearch: the MML parser and the melody search.

A shallow embedding of `src/MeloSearch/src/MeloSearch.cpp` (functions `parseMML`
and `searchNotes`) and theorems about it.

Modelling conventions.

* A C string is a `List Char`; the pointer `&mml[i]` is the unread suffix of the
  list. A `'\0'` inside the list ends the string, as in C.
* Integers are those of an LP64 target (x86-64): an `int` has 32 bits and a
  `long` 64. A value stored in an `int` is wrapped by `toInt32` (two's
  complement, `% 2^32`): the pitch `keys[..] + octave * 12`, `octave++` and
  `octave--`, and the `long` of `strtol` stored in `octave`, `defaultLength`
  and `length`. A shift takes its count modulo 32, as the machine does. The
  sums that grow with the text (`key++` once per modifier, `duration +=` once
  per dot, `time +=` once per token) are kept exact: an overflow of these,
  which takes a pitch at the end of the range of `int` or a text of millions
  of characters, is not modelled. The cast `(byte)` is `% 256`.
* `strtol` is modelled on its base-10 grammar (white space, sign, digits) and
  returns the value, held to the range of `long`, together with the number of
  characters consumed (`endp - nptr`). `strtod` produces a floating point
  number; it is a parameter of the development, abstracted to the number of
  characters it consumes and to the outcome of the test `tempo <= 0.0`.
* The input file is a list of bytes; `fgetc` at a position past the end is `EOF`
  (`none`). `fileSize` is the length of the list.
* The `while` loop of `parseMML` runs on fuel: `none` means that the fuel ran
  out. Division by zero and a write past the end of the `notes` array are
  recorded as faults.
* Output is modelled by the lines printed for the matches; the closing remark
  printed after the scan and the messages on `stderr` of `searchNotes` are left out.
-/

namespace MeloSearch

/-! ## Data model -/

/-- The C type `byte` (`unsigned char`). -/
abbrev byte := Fin 256

/-- The generic note structure `SeqNote`. -/
structure SeqNote where
  time : Int
  key : Int
  duration : Int
deriving DecidableEq, Repr

def NOTE_KEY_REST : Int := 0x1000

def NOTE_KEY_TIE : Int := 0x1001

def MELO_MAX_NOTE_DIST_DEFAULT : Int := 6

def INT_MAX : Int := 2147483647

def INT_MIN : Int := -2147483648

def LONG_MAX : Int := 9223372036854775807

def LONG_MIN : Int := -9223372036854775808

/-- The value an `int` holds when the number `v` is stored in it: `v` wrapped to
32 bits in two's complement. -/
def toInt32 (v : Int) : Int := (v + 2147483648) % 4294967296 - 2147483648

/-- The value `strtol` returns for the number `v`: out of the range of `long` it
is `LONG_MAX` or `LONG_MIN`. -/
def clampLong (v : Int) : Int :=
  if v > LONG_MAX then LONG_MAX else if v < LONG_MIN then LONG_MIN else v

/-- The messages `parseMML` prints before it returns `false`. -/
inductive ParseError
  | illegalTempoNumber
  | illegalTempo
  | illegalOctaveNumber
  | illegalDefaultLengthNumber
  | illegalDefaultLength
  | lengthNotPositive
  | tieNotSupported
  | unknownCharacter (c : Char)
deriving DecidableEq, Repr

/-- Undefined behaviour the code can run into: the division `(timebase * 4) / length`
with `length = 0`, and the write `notes[noteCount]` with `noteCount` outside the
array. -/
inductive Fault
  | divisionByZero
  | notesOverrun
deriving DecidableEq, Repr

/-- How a call of `parseMML` ends: `ok notes` is `return true` with
`noteCount = notes.length`, `error e` is `return false` after the message `e`. -/
inductive ParseResult
  | ok (notes : List SeqNote)
  | error (e : ParseError)
  | fault (f : Fault)
deriving DecidableEq, Repr

/-! ## C library functions -/

/-- The function `isspace` of the C locale. -/
def isspace (c : Char) : Bool :=
  c == ' ' || c == '\t' || c == '\n' || c == '\x0b' || c == '\x0c' || c == '\r'

/-- The function `tolower` of the C locale. -/
def tolower (c : Char) : Char := c.toLower

/-- The digits of `strtol`: the value read so far and the number of digits consumed. -/
def strtolDigits (acc : Nat) : List Char → Nat × Nat
  | [] => (acc, 0)
  | c :: cs =>
    if c.isDigit then
      let r := strtolDigits (acc * 10 + (c.toNat - '0'.toNat)) cs
      (r.1, r.2 + 1)
    else (acc, 0)

/-- The call `strtol(s, &endp, 10)`: the `long` value and `endp - s`. Leading white
space and one sign are skipped; without a digit nothing is consumed and the
value is 0. -/
def strtol (s : List Char) : Int × Nat :=
  let s1 := s.dropWhile isspace
  let neg : Bool := s1.head? == some '-'
  let signed : Bool := neg || s1.head? == some '+'
  let s2 := if signed then s1.tail else s1
  let r := strtolDigits 0 s2
  if r.2 = 0 then (0, 0)
  else (clampLong (if neg then -(r.1 : Int) else (r.1 : Int)),
    (s.length - s1.length) + (if signed then 1 else 0) + r.2)

/-! ## parseMML -/

/-- The local variables of `parseMML`: `rest` is `&mml[i]`, `notes` is
`notes[0 .. noteCount)`. -/
structure ParseState where
  rest : List Char
  time : Int
  octave : Int
  defaultLength : Int
  notes : List SeqNote
deriving DecidableEq, Repr

def timebase : Int := 48

/-- The table `keys` of the note branch. -/
def keys : List Int := [9, 11, 0, 2, 4, 5, 7]

/-- The loop `while (mml[i] == '+' || mml[i] == '-')`: both branches do `key++`. -/
def scanModifiers (key : Int) : List Char → Int × List Char
  | [] => (key, [])
  | ch :: cs =>
    if ch = '+' ∨ ch = '-' then
      if ch = '+' then scanModifiers (key + 1) cs
      else if ch = '-' then scanModifiers (key + 1) cs
      else scanModifiers key cs
    else (key, ch :: cs)

/-- The loop `while (mml[i] == '.')`: `dotCount++; duration += baseDuration >> dotCount`,
the shift of the 32-bit `baseDuration` taking its count modulo 32. -/
def scanDots (baseDuration : Int) (duration : Int) (dotCount : Nat) : List Char → Int × List Char
  | [] => (duration, [])
  | ch :: cs =>
    if ch = '.' then
      scanDots baseDuration (duration + (baseDuration >>> ((dotCount + 1) % 32))) (dotCount + 1) cs
    else (duration, ch :: cs)

/-- One pass through the body of the `while` loop either goes on with a new
state or returns. -/
inductive Step
  | next (st : ParseState)
  | stop (r : ParseResult)
deriving DecidableEq, Repr

/-- The branch for `a`..`g`, `r` and `^` (lines 117-195); `c` is the lowered
character, `cs` the text after it. The pitch and the length are stored in
`int` variables. -/
def noteBody (maxNotes : Nat) (st : ParseState) (c : Char) (cs : List Char) : Step :=
  let isNote : Bool := decide ('a' ≤ c) && decide (c ≤ 'g')
  let key0 : Int :=
    if isNote then toInt32 (keys.getD (c.toNat - 'a'.toNat) 0 + st.octave * 12)
    else if c = 'r' then NOTE_KEY_REST
    else if c = '^' then NOTE_KEY_TIE
    else 0
  let m := scanModifiers key0 cs
  let key := m.1
  let n := strtol m.2
  let length : Int := if n.2 = 0 then st.defaultLength else toInt32 n.1
  let r2 := m.2.drop n.2
  if length = 0 then .stop (.fault .divisionByZero)
  else
    let baseDuration := Int.tdiv (timebase * 4) length
    let d := scanDots baseDuration baseDuration 0 r2
    let duration := d.1
    if length ≤ 0 then .stop (.error .lengthNotPositive)
    else if isNote then
      if st.notes.length < maxNotes then
        .next { st with rest := d.2, time := st.time + duration,
                        notes := st.notes ++ [⟨st.time, key, duration⟩] }
      else .stop (.fault .notesOverrun)
    else if c = '^' then .stop (.error .tieNotSupported)
    else .next { st with rest := d.2, time := st.time + duration }

/-- The body of the `while` loop of `parseMML` at `mml[i] = ch`, `&mml[i+1] = cs`.
The values of `strtol` and `octave + 1`, `octave - 1` are stored in `int`
variables. -/
def loopBody (strtod : List Char → Nat × Bool) (maxNotes : Nat) (st : ParseState)
    (ch : Char) (cs : List Char) : Step :=
  let c := tolower ch
  if isspace c then .next st
  else if c = 't' then
    let t := strtod cs
    if t.1 = 0 then .stop (.error .illegalTempoNumber)
    else if t.2 then .stop (.error .illegalTempo)
    else .next { st with rest := cs.drop t.1 }
  else if c = 'o' then
    let n := strtol cs
    if n.2 = 0 then .stop (.error .illegalOctaveNumber)
    else .next { st with rest := cs.drop n.2, octave := toInt32 n.1 }
  else if c = 'l' then
    let n := strtol cs
    if n.2 = 0 then .stop (.error .illegalDefaultLengthNumber)
    else if toInt32 n.1 ≤ 0 then .stop (.error .illegalDefaultLength)
    else .next { st with rest := cs.drop n.2, defaultLength := toInt32 n.1 }
  else if c = '<' then .next { st with rest := cs, octave := toInt32 (st.octave + 1) }
  else if c = '>' then .next { st with rest := cs, octave := toInt32 (st.octave - 1) }
  else if (decide ('a' ≤ c) && decide (c ≤ 'g')) || c = 'r' || c = '^' then
    noteBody maxNotes st c cs
  else .stop (.error (.unknownCharacter c))

/-- The loop `while (mml[i] != '\0')` followed by `return true`. -/
def parseLoop (strtod : List Char → Nat × Bool) (maxNotes : Nat) :
    Nat → ParseState → Option ParseResult
  | 0, _ => none
  | fuel + 1, st =>
    match st.rest with
    | [] => some (.ok st.notes)
    | ch :: cs =>
      if ch = '\x00' then some (.ok st.notes)
      else
        match loopBody strtod maxNotes st ch cs with
        | .stop r => some r
        | .next st1 => parseLoop strtod maxNotes fuel st1

/-- The variables of `parseMML` before the loop. -/
def initialState (mml : List Char) : ParseState :=
  { rest := mml, time := 0, octave := 4, defaultLength := 4, notes := [] }

/-- The function `parseMML` on an array `notes` of `maxNotes` entries (the pointers
are taken to be valid). Every pass of the loop that moves on consumes a
character, so `mml.length + 1` passes are all the loop needs unless it stands
still. -/
def parseMML (strtod : List Char → Nat × Bool) (maxNotes : Nat) (mml : List Char) :
    Option ParseResult :=
  parseLoop strtod maxNotes (mml.length + 1) (initialState mml)

/-! ## searchNotes -/

/-- The call `fgetc` with the file positioned at `pos`; `none` is `EOF`. -/
def fgetc (inFile : List byte) (pos : Int) : Option byte :=
  if pos < 0 then none else inFile[pos.toNat]?

/-- What the three variables of one window hold: `targetByteFound`,
`minOffsets[noteIndex]` and `maxOffsets[noteIndex]`. -/
structure Window where
  targetByteFound : Bool
  minOffset : Int
  maxOffset : Int
deriving DecidableEq, Repr

/-- The loop `for (off = minOffset; off <= maxOffset; off++)` (lines 323-342) with
`k` passes left; the file was positioned at `offset + minOffset` before the
loop, so the pass for `off` reads the byte at `offset + off`. -/
def scanWindow (inFile : List byte) (offset : Nat) (targetByte : Int) :
    Nat → Int → Window → Window
  | 0, _, w => w
  | k + 1, off, w =>
    match fgetc inFile ((offset : Int) + off) with
    | none => w
    | some c =>
      if ((c.val : Nat) : Int) = targetByte then
        scanWindow inFile offset targetByte k (off + 1)
          { targetByteFound := true,
            minOffset := if w.minOffset > off then off else w.minOffset,
            maxOffset := if w.maxOffset < off then off else w.maxOffset }
      else scanWindow inFile offset targetByte k (off + 1) w

/-- The loop headed "byte range check" (lines 300-308): its `continue` goes on
with this loop itself, so both branches do the same and nothing is changed. -/
def byteRangeCheck (firstByte : byte) : List Int → Unit
  | [] => ()
  | key :: rest =>
    let byteValue : Int := (firstByte.val : Int) + key
    if byteValue < 0 ∨ byteValue > 0xff then byteRangeCheck firstByte rest
    else byteRangeCheck firstByte rest

/-- The loop `for (noteIndex = 1; noteIndex < noteCount; noteIndex++)` (lines
313-347) entered at `noteIndex` with `prev = minOffsets[noteIndex - 1]`; the list
holds the keys of `notes[noteIndex ..]`. The result is `noteIndex` after the loop
and the windows written on the way. -/
def noteLoop (inFile : List byte) (offset : Nat) (firstByte : byte) (maxNoteDist : Int) :
    List Int → Nat → Int → Nat × List Window
  | [], noteIndex, _ => (noteIndex, [])
  | key :: rest, noteIndex, prev =>
    let minOffset := prev + 1
    let maxOffset := prev + maxNoteDist
    let targetByte : Int := ((firstByte.val : Int) + key) % 256
    let w := scanWindow inFile offset targetByte (maxOffset - minOffset + 1).toNat minOffset
      { targetByteFound := false, minOffset := INT_MAX, maxOffset := INT_MIN }
    if !w.targetByteFound then (noteIndex, [w])
    else
      let r := noteLoop inFile offset firstByte maxNoteDist rest (noteIndex + 1) w.minOffset
      (r.1, w :: r.2)

/-- A line printed for a match: the offset alone in quiet mode, otherwise the
offset, the first byte and `firstByte + notes[noteIndex].key` for every later note. -/
inductive Line
  | quiet (offset : Nat)
  | full (offset : Nat) (firstByte : byte) (byteValues : List Int)
deriving DecidableEq, Repr

def Line.offset : Line → Nat
  | .quiet offset => offset
  | .full offset _ _ => offset

/-- The loop "make keys relative to the first note" and `notes[0].key = 0`. -/
def normalize : List SeqNote → List SeqNote
  | [] => []
  | n0 :: rest => { n0 with key := 0 } :: rest.map (fun n => { n with key := n.key - n0.key })

/-- The body of the loop over `offset` (lines 296-366) on normalised notes: the
line it prints, if any. A read at `EOF` would give `(byte) EOF = 255`. -/
def offsetBody (glQuiet : Bool) (inFile : List byte) (notes : List SeqNote) (maxNoteDist : Int)
    (offset : Nat) : Option Line :=
  let firstByte : byte := (fgetc inFile offset).getD 255
  let _ := byteRangeCheck firstByte (notes.tail.map (fun n => n.key))
  let r := noteLoop inFile offset firstByte maxNoteDist (notes.tail.map (fun n => n.key)) 1 0
  if r.1 = notes.length then
    some (if glQuiet then .quiet offset
      else .full offset firstByte (notes.tail.map (fun n => (firstByte.val : Int) + n.key)))
  else none

/-- The variable `found` and the lines printed for the matches. -/
structure SearchOutput where
  found : Bool
  lines : List Line
deriving DecidableEq, Repr

/-- The end of the body of the offset loop (lines 348-366): a match sets `found`
and prints its line. -/
def report (out : SearchOutput) : Option Line → SearchOutput
  | some l => { found := true, lines := out.lines ++ [l] }
  | none => out

/-- The loop `for (offset = 0; offset < fileSize; offset++)` on normalised notes. -/
def searchLoop (glQuiet : Bool) (inFile : List byte) (notes : List SeqNote) (maxNoteDist : Int) :
    SearchOutput :=
  (List.range inFile.length).foldl
    (fun out offset => report out (offsetBody glQuiet inFile notes maxNoteDist offset))
    { found := false, lines := [] }

/-- The part of `searchNotes` after the melody is parsed (lines 269-367):
normalisation and the scan. Allocation is taken to succeed. -/
def searchParsed (glQuiet : Bool) (inFile : List byte) (notes : List SeqNote) (maxNoteDist : Int) :
    SearchOutput :=
  searchLoop glQuiet inFile (normalize notes) maxNoteDist

/-- How a call of `searchNotes` ends: with the value of `found` and the lines
printed for the matches, or in a fault of `parseMML`. -/
inductive SearchResult
  | done (found : Bool) (lines : List Line)
  | fault (f : Fault)
deriving DecidableEq, Repr

/-- The function `searchNotes`, with `SeqNote notes[512]`. -/
def searchNotes (strtod : List Char → Nat × Bool) (glQuiet : Bool) (inFile : List byte)
    (mml : List Char) (maxNoteDist : Int) : Option SearchResult :=
  if maxNoteDist < 1 then some (.done false [])
  else if maxNoteDist > 16 then some (.done false [])
  else
    match parseMML strtod 512 mml with
    | none => none
    | some (.error _) => some (.done false [])
    | some (.fault f) => some (.fault f)
    | some (.ok notes) =>
      let out := searchParsed glQuiet inFile notes maxNoteDist
      some (.done out.found out.lines)

/-! ## Reference definitions for the search -/

/-- The byte at position `pos` of the file, as a number (0 past the end). -/
def byteAt (inFile : List byte) (pos : Nat) : Int := (((inFile.getD pos 0).val : Nat) : Int)

/-- Position `pos` lies in the file and holds the value `v`. -/
def byteIs (inFile : List byte) (pos : Nat) (v : Int) : Bool :=
  match inFile[pos]? with
  | some c => decide ((((c.val : Nat) : Int)) = v)
  | none => false

/-- The pitch of note `i` of a pattern (0 outside the pattern). -/
def keyAt (notes : List SeqNote) (i : Nat) : Int := (notes.getD i ⟨0, 0, 0⟩).key

/-- The pitch delta of note `i`: its pitch minus the pitch of note 0. -/
def delta (notes : List SeqNote) (i : Nat) : Int := keyAt notes i - keyAt notes 0

/-- Offset `s` is reported: one of the printed lines is the line of offset `s`. -/
def Reported (lines : List Line) (s : Nat) : Prop := ∃ l ∈ lines, l.offset = s

/-- The least `off` in `[lo, lo + g)` such that `s + off` lies in the file and holds
`target`. -/
def leastOffset (inFile : List byte) (s : Nat) (target : Int) (lo g : Nat) : Option Nat :=
  (List.range' lo g).find? (fun off => byteIs inFile (s + off) target)

/-- The earliest-anchor sequence of the reference definition after the anchor
`prev`: each anchor is the least offset in `[prev + 1, prev + g]` that holds the
next target; `none` when some anchor is not defined. -/
def earliestAnchors (inFile : List byte) (s g : Nat) : List Int → Nat → Option (List Nat)
  | [], _ => some []
  | t :: ts, prev =>
    match leastOffset inFile s t (prev + 1) g with
    | none => none
    | some a => (earliestAnchors inFile s g ts a).map (fun as => a :: as)

/-- The raw sums `buffer[s] + delta_i` for the notes `i = 1 .. n-1`. -/
def rawSums (inFile : List byte) (s : Nat) (notes : List SeqNote) : List Int :=
  (List.range (notes.length - 1)).map (fun i => byteAt inFile s + delta notes (i + 1))

/-! ## Reference definitions for the parser -/

/-- The note letters `a`..`g`, in either case. -/
def noteLetters : List Char :=
  ['a', 'b', 'c', 'd', 'e', 'f', 'g', 'A', 'B', 'C', 'D', 'E', 'F', 'G']

/-- The pitch class offsets of the grammar: a=9, b=11, c=0, d=2, e=4, f=5, g=7. -/
def classOffset (x : Char) : Int :=
  if x = 'a' ∨ x = 'A' then 9
  else if x = 'b' ∨ x = 'B' then 11
  else if x = 'c' ∨ x = 'C' then 0
  else if x = 'd' ∨ x = 'D' then 2
  else if x = 'e' ∨ x = 'E' then 4
  else if x = 'f' ∨ x = 'F' then 5
  else if x = 'g' ∨ x = 'G' then 7
  else 0

/-- The decimal numeral of `n`. -/
def decimal (n : Nat) : List Char := Nat.toDigits 10 n

/-- The duration of a note of base duration `base` with `k` dots:
`base + sum over j = 1..k of floor(base / 2^j)`. -/
def dottedDuration (base : Int) (k : Nat) : Int :=
  base + ((List.range k).map (fun j => base / 2 ^ (j + 1))).sum

/-- The text `tl` does not go on with the note token before it: it is empty or
starts with a character that is no modifier, digit, dot or white space. -/
def TokenEnd (tl : List Char) : Prop :=
  ∀ c ∈ tl.head?, c ≠ '+' ∧ c ≠ '-' ∧ c ≠ '.' ∧ c.isDigit = false ∧ isspace c = false

/-- The text `digs` written for a length resolves to `L` when the default length
is `dflt`: no text gives the default, a decimal numeral gives its value as
`strtol` returns it and an `int` holds it. -/
def LengthText (dflt : Int) (digs : List Char) (L : Int) : Prop :=
  (digs = [] ∧ L = dflt) ∨ (∃ n : Nat, digs = decimal n ∧ L = toInt32 (clampLong (n : Int)))

/-- A token that takes time: a pitched note `a`..`g` with its pitch, or a rest;
both with their duration. -/
inductive Token
  | pitched (key : Int) (duration : Int)
  | rest (duration : Int)
deriving DecidableEq, Repr

def Token.duration : Token → Int
  | .pitched _ d => d
  | .rest d => d

/-- The note or rest token that starts with the (lowered) character `c`, read
with the octave and default length given, and the text after the token: the
letter, a run of modifiers, an optional length and a run of dots. -/
def tokenAt (octave defaultLength : Int) (c : Char) (cs : List Char) : Token × List Char :=
  let pitch : Int := toInt32 (keys.getD (c.toNat - 'a'.toNat) 0 + octave * 12)
  let m := scanModifiers pitch cs
  let n := strtol m.2
  let length : Int := if n.2 = 0 then defaultLength else toInt32 n.1
  let base := Int.tdiv (timebase * 4) length
  let d := scanDots base base 0 (m.2.drop n.2)
  (if c = 'r' then Token.rest d.1 else Token.pitched m.1 d.1, d.2)

/-- The pitched-note and rest tokens of an MML text in their order of appearance,
read with the octave and default length given. The commands `t`, `o`, `l`, `<`
and `>` and white space are no such tokens; the text is read up to the first
character that starts no token. Nothing is emitted and no clock is kept here. -/
def tokens (strtod : List Char → Nat × Bool) : Nat → Int → Int → List Char → List Token
  | 0, _, _, _ => []
  | _ + 1, _, _, [] => []
  | fuel + 1, octave, defaultLength, ch :: cs =>
    let c := tolower ch
    if isspace c then tokens strtod fuel octave defaultLength cs
    else if c = 't' then tokens strtod fuel octave defaultLength (cs.drop (strtod cs).1)
    else if c = 'o' then
      tokens strtod fuel (toInt32 (strtol cs).1) defaultLength (cs.drop (strtol cs).2)
    else if c = 'l' then
      tokens strtod fuel octave (toInt32 (strtol cs).1) (cs.drop (strtol cs).2)
    else if c = '<' then tokens strtod fuel (toInt32 (octave + 1)) defaultLength cs
    else if c = '>' then tokens strtod fuel (toInt32 (octave - 1)) defaultLength cs
    else if (decide ('a' ≤ c) && decide (c ≤ 'g')) || c = 'r' then
      (tokenAt octave defaultLength c cs).1 ::
        tokens strtod fuel octave defaultLength (tokenAt octave defaultLength c cs).2
    else []

/-- The sum of the durations of the tokens before token `j`. -/
def durationBefore (toks : List Token) (j : Nat) : Int :=
  ((toks.take j).map Token.duration).sum

/-- The note of a token that starts at `start`: a pitched token gives a note, a
rest (or no token) gives none. -/
def noteOfToken (start : Int) : Option Token → Option SeqNote
  | some (.pitched key d) => some ⟨start, key, d⟩
  | _ => none

/-- The notes a token sequence stands for: one note per pitched token, in order,
that starts after the durations of all tokens before it. -/
def notesOfTokens (toks : List Token) : List SeqNote :=
  (List.range toks.length).filterMap (fun j => noteOfToken (durationBefore toks j) toks[j]?)

/-- The notes of a token sequence when the clock stands at `time`. -/
def notesFrom : Int → List Token → List SeqNote
  | _, [] => []
  | time, .pitched key d :: toks => ⟨time, key, d⟩ :: notesFrom (time + d) toks
  | time, .rest d :: toks => notesFrom (time + d) toks

/-! ## Further reference definitions -/

/-- The length denominator of the note or rest token that starts with the
(lowered) character `c`, as the parser resolves it: the number written after
the modifiers, stored in an `int`, or the default length when none is written. -/
def lengthAt (octave defaultLength : Int) (c : Char) (cs : List Char) : Int :=
  let pitch : Int := toInt32 (keys.getD (c.toNat - 'a'.toNat) 0 + octave * 12)
  let m := scanModifiers pitch cs
  let n := strtol m.2
  if n.2 = 0 then defaultLength else toInt32 n.1

/-- The length denominators of the pitched-note tokens of an MML text in their
order of appearance, read like `tokens`. -/
def pitchedLengths (strtod : List Char → Nat × Bool) : Nat → Int → Int → List Char → List Int
  | 0, _, _, _ => []
  | _ + 1, _, _, [] => []
  | fuel + 1, octave, defaultLength, ch :: cs =>
    let c := tolower ch
    if isspace c then pitchedLengths strtod fuel octave defaultLength cs
    else if c = 't' then pitchedLengths strtod fuel octave defaultLength (cs.drop (strtod cs).1)
    else if c = 'o' then
      pitchedLengths strtod fuel (toInt32 (strtol cs).1) defaultLength (cs.drop (strtol cs).2)
    else if c = 'l' then
      pitchedLengths strtod fuel octave (toInt32 (strtol cs).1) (cs.drop (strtol cs).2)
    else if c = '<' then pitchedLengths strtod fuel (toInt32 (octave + 1)) defaultLength cs
    else if c = '>' then pitchedLengths strtod fuel (toInt32 (octave - 1)) defaultLength cs
    else if (decide ('a' ≤ c) && decide (c ≤ 'g')) || c = 'r' then
      (if c = 'r' then [] else [lengthAt octave defaultLength c cs]) ++
        pitchedLengths strtod fuel octave defaultLength (tokenAt octave defaultLength c cs).2
    else []

/-- The array `minOffsets` after the note loop at `offset`, for the notes of a
melody as parsed: entry 0 is 0 and entry `i` is the earliest position found for
note `i`, relative to `offset` (the entries up to the note at which the loop
stopped). -/
def minOffsetsAt (inFile : List byte) (notes : List SeqNote) (maxNoteDist : Int)
    (offset : Nat) : List Int :=
  let firstByte : byte := (fgetc inFile offset).getD 255
  0 :: (noteLoop inFile offset firstByte maxNoteDist
    ((normalize notes).tail.map (fun n => n.key)) 1 0).2.map (fun w => w.minOffset)

/-! ## The search: the code against the earliest-anchor reference -/

theorem fgetc_natCast (inFile : List byte) (a : Nat) : fgetc inFile (a : Int) = inFile[a]? := by
  simp [fgetc]

theorem fgetc_add (inFile : List byte) (a b : Nat) :
    fgetc inFile ((a : Int) + (b : Int)) = inFile[a + b]? := by
  rw [← fgetc_natCast]; push_cast; rfl

theorem byteIs_iff (inFile : List byte) (pos : Nat) (v : Int) :
    byteIs inFile pos v = true ↔ ∃ c, inFile[pos]? = some c ∧ (((c.val : Nat) : Int)) = v := by
  unfold byteIs
  cases h : inFile[pos]? with
  | none => simp
  | some c => simp

theorem byteIs_eof (inFile : List byte) (pos pos1 : Nat) (v : Int) (h : inFile[pos]? = none)
    (hle : pos ≤ pos1) : byteIs inFile pos1 v = false := by
  have h1 : inFile[pos1]? = none := by
    rw [List.getElem?_eq_none_iff] at h ⊢
    omega
  simp [byteIs, h1]

theorem leastOffset_eof (inFile : List byte) (s : Nat) (t : Int) (lo g : Nat)
    (h : inFile[s + lo]? = none) : leastOffset inFile s t lo g = none := by
  unfold leastOffset
  rw [List.find?_eq_none]
  intro x hx
  rw [List.mem_range'_1] at hx
  simp [byteIs_eof inFile (s + lo) (s + x) t h (by omega)]

theorem leastOffset_succ (inFile : List byte) (s : Nat) (t : Int) (lo g : Nat) :
    leastOffset inFile s t lo (g + 1) =
      if byteIs inFile (s + lo) t then some lo else leastOffset inFile s t (lo + 1) g := by
  unfold leastOffset
  rw [List.range'_succ, List.find?_cons]
  cases byteIs inFile (s + lo) t <;> simp

theorem leastOffset_some (inFile : List byte) (s : Nat) (t : Int) (lo g a : Nat)
    (h : leastOffset inFile s t lo g = some a) :
    lo ≤ a ∧ a < lo + g ∧ byteIs inFile (s + a) t = true ∧
      ∀ off, lo ≤ off → off < a → byteIs inFile (s + off) t = false := by
  induction g generalizing lo with
  | zero => simp [leastOffset] at h
  | succ g ih =>
    rw [leastOffset_succ] at h
    by_cases hb : byteIs inFile (s + lo) t = true
    · rw [if_pos hb] at h
      have h1 : lo = a := Option.some.inj h
      subst h1
      exact ⟨le_refl _, by omega, hb, fun off h1 h2 => by omega⟩
    · rw [if_neg hb] at h
      obtain ⟨h1, h2, h3, h4⟩ := ih (lo + 1) h
      refine ⟨by omega, by omega, h3, fun off ho1 ho2 => ?_⟩
      by_cases he : off = lo
      · subst he; simpa using hb
      · exact h4 off (by omega) ho2

theorem leastOffset_of_first (inFile : List byte) (s : Nat) (t : Int) (lo g a : Nat)
    (h1 : lo ≤ a) (h2 : a < lo + g) (h3 : byteIs inFile (s + a) t = true)
    (h4 : ∀ off, lo ≤ off → off < a → byteIs inFile (s + off) t = false) :
    leastOffset inFile s t lo g = some a := by
  induction g generalizing lo with
  | zero => omega
  | succ g ih =>
    rw [leastOffset_succ]
    by_cases he : a = lo
    · subst he; rw [if_pos h3]
    · have hb : byteIs inFile (s + lo) t = false := h4 lo (le_refl _) (by omega)
      rw [hb]
      simp only [Bool.false_eq_true, if_false]
      exact ih (lo + 1) (by omega) (by omega) (fun off ho1 ho2 => h4 off (by omega) ho2)

theorem scanWindow_found (inFile : List byte) (offset : Nat) (t : Int) (k : Nat) :
    ∀ (off : Int) (w : Window), w.targetByteFound = true → w.minOffset < off →
      (scanWindow inFile offset t k off w).targetByteFound = true ∧
      (scanWindow inFile offset t k off w).minOffset = w.minOffset := by
  induction k with
  | zero => intro off w h1 _; exact ⟨h1, rfl⟩
  | succ k ih =>
    intro off w h1 h2
    unfold scanWindow
    cases hc : fgetc inFile ((offset : Int) + off) with
    | none => exact ⟨h1, rfl⟩
    | some c =>
      simp only
      by_cases ht : (((c.val : Nat) : Int)) = t
      · rw [if_pos ht]
        have hmin : (if w.minOffset > off then off else w.minOffset) = w.minOffset := by
          rw [if_neg (by omega)]
        obtain ⟨r1, r2⟩ := ih (off + 1)
          { targetByteFound := true,
            minOffset := if w.minOffset > off then off else w.minOffset,
            maxOffset := if w.maxOffset < off then off else w.maxOffset } rfl
          (by simp only [hmin]; omega)
        exact ⟨r1, by rw [r2, hmin]⟩
      · rw [if_neg ht]
        exact ih (off + 1) w h1 (by omega)

theorem scanWindow_fresh (inFile : List byte) (offset : Nat) (t : Int) (k : Nat) :
    ∀ (off : Nat), (off : Int) + k ≤ INT_MAX →
      (scanWindow inFile offset t k off ⟨false, INT_MAX, INT_MIN⟩).targetByteFound =
        (leastOffset inFile offset t off k).isSome ∧
      ∀ a, leastOffset inFile offset t off k = some a →
        (scanWindow inFile offset t k off ⟨false, INT_MAX, INT_MIN⟩).minOffset = (a : Int) := by
  induction k with
  | zero =>
    intro off _
    simp [scanWindow, leastOffset]
  | succ k ih =>
    intro off hb
    unfold scanWindow
    rw [fgetc_add, leastOffset_succ]
    cases hc : inFile[offset + off]? with
    | none =>
      have h0 : byteIs inFile (offset + off) t = false := by simp [byteIs, hc]
      have h1 : leastOffset inFile offset t (off + 1) k = none :=
        leastOffset_eof inFile offset t (off + 1) k (by
          rw [List.getElem?_eq_none_iff] at hc ⊢
          omega)
      simp [h0, h1]
    | some c =>
      simp only
      by_cases ht : (((c.val : Nat) : Int)) = t
      · have h0 : byteIs inFile (offset + off) t = true := by
          rw [byteIs_iff]; exact ⟨c, hc, ht⟩
        rw [if_pos ht, if_pos h0]
        have hlt : (off : Int) < INT_MAX := by push_cast at hb; omega
        have hmin : (if INT_MAX > (off : Int) then (off : Int) else INT_MAX) = (off : Int) := by
          rw [if_pos hlt]
        obtain ⟨r1, r2⟩ := scanWindow_found inFile offset t k ((off : Int) + 1)
          { targetByteFound := true,
            minOffset := if INT_MAX > (off : Int) then (off : Int) else INT_MAX,
            maxOffset := if INT_MIN < (off : Int) then (off : Int) else INT_MIN } rfl
          (by simp only [hmin]; omega)
        refine ⟨by simpa using r1, fun a ha => ?_⟩
        have ha1 : off = a := Option.some.inj ha
        rw [r2, hmin, ha1]
      · have h0 : ¬ byteIs inFile (offset + off) t = true := by
          rw [byteIs_iff]; rintro ⟨c1, hc1, ht1⟩
          rw [hc] at hc1; have hc2 := Option.some.inj hc1; subst hc2; exact ht ht1
        rw [if_neg ht, if_neg h0]
        have := ih (off + 1) (by push_cast at hb ⊢; omega)
        simpa using this


theorem noteLoop_complete_iff (inFile : List byte) (offset : Nat) (fb : byte) (g : Nat)
    (hg : g ≤ 16) :
    ∀ (ks : List Int) (idx prev : Nat), prev + 16 * ks.length < 2147483647 →
      ((noteLoop inFile offset fb g ks idx prev).1 = idx + ks.length ↔
        (earliestAnchors inFile offset g
          (ks.map (fun k => ((fb.val : Int) + k) % 256)) prev).isSome = true) := by
  intro ks
  induction ks with
  | nil => intro idx prev _; simp [noteLoop, earliestAnchors]
  | cons key rest ih =>
    intro idx prev hb
    simp only [List.length_cons] at hb
    have hcount : ((prev : Int) + (g : Int) - ((prev : Int) + 1) + 1).toNat = g := by omega
    have hstart : ((prev : Int) + 1) = ((prev + 1 : Nat) : Int) := by push_cast; rfl
    have hfresh := scanWindow_fresh inFile offset (((fb.val : Int) + key) % 256) g (prev + 1)
      (by unfold INT_MAX; push_cast; omega)
    rw [← hstart] at hfresh
    unfold noteLoop
    simp only [List.map_cons, earliestAnchors, hcount]
    cases hl : leastOffset inFile offset (((fb.val : Int) + key) % 256) (prev + 1) g with
    | none =>
      rw [hl] at hfresh
      have hf := hfresh.1
      simp only [Option.isSome_none] at hf
      simp [hf]
    | some a =>
      rw [hl] at hfresh
      have hf := hfresh.1
      have hm := hfresh.2 a rfl
      have hbound := leastOffset_some inFile offset _ (prev + 1) g a hl
      simp only [Option.isSome_some] at hf
      simp only [hf, hm, Bool.not_true, Bool.false_eq_true, if_false, List.length_cons,
        Option.isSome_map']
      rw [← ih (idx + 1) a (by omega)]
      omega

theorem foldl_lines (f : Nat → Option Line) (l : List Nat) (out : SearchOutput) :
    (l.foldl (fun out offset => report out (f offset)) out).lines =
      out.lines ++ l.filterMap f := by
  induction l generalizing out with
  | nil => simp
  | cons x xs ih =>
    rw [List.foldl_cons, ih]
    cases hx : f x with
    | none => simp [List.filterMap_cons, hx, report]
    | some y => simp [List.filterMap_cons, hx, report]

theorem foldl_found (f : Nat → Option Line) (l : List Nat) (out : SearchOutput) :
    (l.foldl (fun out offset => report out (f offset)) out).found =
      (out.found || !(l.filterMap f).isEmpty) := by
  induction l generalizing out with
  | nil => simp
  | cons x xs ih =>
    rw [List.foldl_cons, ih]
    cases hx : f x with
    | none => simp [List.filterMap_cons, hx, report]
    | some y => simp [List.filterMap_cons, hx, report]

theorem searchLoop_lines (glQuiet : Bool) (inFile : List byte) (notes : List SeqNote)
    (g : Int) :
    (searchLoop glQuiet inFile notes g).lines =
      (List.range inFile.length).filterMap (offsetBody glQuiet inFile notes g) := by
  unfold searchLoop
  rw [foldl_lines]
  rfl

theorem searchLoop_found (glQuiet : Bool) (inFile : List byte) (notes : List SeqNote)
    (g : Int) :
    (searchLoop glQuiet inFile notes g).found =
      !((searchLoop glQuiet inFile notes g).lines).isEmpty := by
  rw [searchLoop_lines]
  unfold searchLoop
  rw [foldl_found]
  rfl

theorem offsetBody_offset (glQuiet : Bool) (inFile : List byte) (notes : List SeqNote)
    (g : Int) (s : Nat) (l : Line) (h : offsetBody glQuiet inFile notes g s = some l) :
    l.offset = s := by
  unfold offsetBody at h
  simp only at h
  split at h
  · have h1 := Option.some.inj h
    subst h1
    cases glQuiet <;> rfl
  · exact absurd h (by simp)

theorem reported_iff (glQuiet : Bool) (inFile : List byte) (notes : List SeqNote)
    (g : Int) (s : Nat) :
    Reported (searchLoop glQuiet inFile notes g).lines s ↔
      s < inFile.length ∧ (offsetBody glQuiet inFile notes g s).isSome = true := by
  rw [searchLoop_lines]
  unfold Reported
  constructor
  · rintro ⟨l, hl, hs⟩
    rw [List.mem_filterMap] at hl
    obtain ⟨o, ho, hlo⟩ := hl
    have := offsetBody_offset glQuiet inFile notes g o l hlo
    rw [hs] at this
    subst this
    exact ⟨List.mem_range.mp ho, by simp [hlo]⟩
  · rintro ⟨hs, hsome⟩
    obtain ⟨l, hl⟩ := Option.isSome_iff_exists.mp hsome
    exact ⟨l, List.mem_filterMap.mpr ⟨s, List.mem_range.mpr hs, hl⟩,
      offsetBody_offset glQuiet inFile notes g s l hl⟩

theorem normalize_length (notes : List SeqNote) : (normalize notes).length = notes.length := by
  cases notes <;> simp [normalize]

theorem normalize_tail_keys (notes : List SeqNote) :
    (normalize notes).tail.map (fun n => n.key) =
      notes.tail.map (fun n => n.key - keyAt notes 0) := by
  cases notes with
  | nil => rfl
  | cons n0 rest => simp [normalize, keyAt]

theorem tail_keys_eq_range (notes : List SeqNote) (f : Int → Int) :
    notes.tail.map (fun n => f (n.key - keyAt notes 0)) =
      (List.range (notes.length - 1)).map (fun i => f (delta notes (i + 1))) := by
  cases notes with
  | nil => rfl
  | cons n0 rest =>
    apply List.ext_getElem
    · simp
    · intro i h1 h2
      simp at h1
      simp [delta, keyAt, List.getD_cons_succ, List.getElem?_eq_getElem h1]

theorem fgetc_getD (inFile : List byte) (s : Nat) (hs : s < inFile.length) :
    (((((fgetc inFile (s : Int)).getD 255).val : Nat) : Int)) = byteAt inFile s := by
  rw [fgetc_natCast, byteAt, List.getElem?_eq_getElem hs, List.getD_eq_getElem _ _ hs]
  rfl

/-- The body of the offset loop prints a line exactly when the earliest-anchor
sequence for the wrapped targets is defined. -/
theorem offsetBody_iff (glQuiet : Bool) (inFile : List byte) (notes : List SeqNote)
    (g s : Nat) (hn : 1 ≤ notes.length) (hcap : notes.length ≤ 512) (hg : g ≤ 16)
    (hs : s < inFile.length) :
    (offsetBody glQuiet inFile (normalize notes) g s).isSome = true ↔
      (earliestAnchors inFile s g
        ((List.range (notes.length - 1)).map
          (fun i => (byteAt inFile s + delta notes (i + 1)) % 256)) 0).isSome = true := by
  unfold offsetBody
  simp only [normalize_length, normalize_tail_keys]
  have hlen : notes.length = 1 + (notes.tail.map (fun n => n.key - keyAt notes 0)).length := by
    simp; omega
  have key := noteLoop_complete_iff inFile s ((fgetc inFile (s : Int)).getD 255) g hg
    (notes.tail.map (fun n => n.key - keyAt notes 0)) 1 0 (by simp; omega)
  rw [← hlen] at key
  rw [List.map_map] at key
  have htargets : notes.tail.map
      ((fun k => ((((fgetc inFile (s : Int)).getD 255).val : Int) + k) % 256) ∘
        (fun n => n.key - keyAt notes 0)) =
      (List.range (notes.length - 1)).map
        (fun i => (byteAt inFile s + delta notes (i + 1)) % 256) := by
    rw [← tail_keys_eq_range notes (fun d => (byteAt inFile s + d) % 256)]
    apply List.map_congr_left
    intro n _
    simp only [Function.comp]
    rw [fgetc_getD inFile s hs]
  rw [htargets] at key
  simp only [Nat.cast_zero] at key
  rw [← key]
  by_cases h : (noteLoop inFile s ((fgetc inFile (s : Int)).getD 255) g
      (notes.tail.map (fun n => n.key - keyAt notes 0)) 1 0).1 = notes.length
  · rw [if_pos h]
    exact ⟨fun _ => h, fun _ => rfl⟩
  · rw [if_neg h]
    exact ⟨fun hx => absurd hx (by simp), fun hx => absurd hx h⟩

/-! ## The earliest-anchor sequence as a chain of positions -/

theorem earliestAnchors_chain (inFile : List byte) (s g : Nat) :
    ∀ (ts : List Int) (prev : Nat), (earliestAnchors inFile s g ts prev).isSome = true →
      ∃ q : Nat → Nat, q 0 = prev ∧ ∀ i (h : i < ts.length),
        q i < q (i + 1) ∧ q (i + 1) ≤ q i + g ∧ byteIs inFile (s + q (i + 1)) ts[i] = true := by
  intro ts
  induction ts with
  | nil => intro prev _; exact ⟨fun _ => prev, rfl, fun i h => absurd h (by simp)⟩
  | cons t ts ih =>
    intro prev h
    simp only [earliestAnchors] at h
    cases hl : leastOffset inFile s t (prev + 1) g with
    | none => rw [hl] at h; simp at h
    | some a =>
      rw [hl] at h
      simp only [Option.isSome_map'] at h
      obtain ⟨q, hq0, hq⟩ := ih a h
      obtain ⟨h1, h2, h3, _⟩ := leastOffset_some inFile s t (prev + 1) g a hl
      refine ⟨fun i => if i = 0 then prev else q (i - 1), by simp, fun i hi => ?_⟩
      cases i with
      | zero =>
        simp only [zero_add, if_true, List.getElem_cons_zero]
        simp only [Nat.one_ne_zero, if_false, Nat.sub_self, hq0]
        exact ⟨by omega, by omega, h3⟩
      | succ j =>
        have hj : j < ts.length := by simpa using hi
        have := hq j hj
        simpa using this

theorem earliestAnchors_of_chain (inFile : List byte) (s g : Nat) :
    ∀ (ts : List Int) (prev : Nat) (q : Nat → Nat), q 0 = prev →
      (∀ i (h : i < ts.length), q i < q (i + 1) ∧ q (i + 1) ≤ q i + g ∧
        byteIs inFile (s + q (i + 1)) ts[i] = true ∧
        ∀ off, q i < off → off < q (i + 1) → byteIs inFile (s + off) ts[i] = false) →
      (earliestAnchors inFile s g ts prev).isSome = true := by
  intro ts
  induction ts with
  | nil => intro prev q _ _; rfl
  | cons t ts ih =>
    intro prev q hq0 hq
    obtain ⟨h1, h2, h3, h4⟩ := hq 0 (by simp)
    simp only [List.getElem_cons_zero, zero_add] at h1 h2 h3 h4
    have hl : leastOffset inFile s t (prev + 1) g = some (q 1) :=
      leastOffset_of_first inFile s t (prev + 1) g (q 1) (by omega) (by omega) h3
        (fun off ho1 ho2 => h4 off (by omega) ho2)
    simp only [earliestAnchors, hl, Option.isSome_map']
    refine ih (q 1) (fun i => q (i + 1)) rfl (fun i hi => ?_)
    have := hq (i + 1) (by simpa using hi)
    simpa using this

theorem mod_targets (inFile : List byte) (s : Nat) (notes : List SeqNote)
    (hrange : ∀ i, i < notes.length →
      0 ≤ byteAt inFile s + delta notes i ∧ byteAt inFile s + delta notes i ≤ 255) :
    (List.range (notes.length - 1)).map
        (fun i => (byteAt inFile s + delta notes (i + 1)) % 256) =
      rawSums inFile s notes := by
  unfold rawSums
  apply List.map_congr_left
  intro i hi
  rw [List.mem_range] at hi
  obtain ⟨h1, h2⟩ := hrange (i + 1) (by omega)
  exact Int.emod_eq_of_lt h1 (by omega)

theorem byteIs_byteAt (inFile : List byte) (pos : Nat) (v : Int) :
    byteIs inFile pos v = true ↔ pos < inFile.length ∧ byteAt inFile pos = v := by
  rw [byteIs_iff]
  constructor
  · rintro ⟨c, hc, hv⟩
    obtain ⟨hlt, hget⟩ := List.getElem?_eq_some_iff.mp hc
    refine ⟨hlt, ?_⟩
    rw [byteAt, List.getD_eq_getElem _ _ hlt, hget]
    exact hv
  · rintro ⟨hlt, hv⟩
    refine ⟨inFile[pos], List.getElem?_eq_getElem hlt, ?_⟩
    rw [byteAt, List.getD_eq_getElem _ _ hlt] at hv
    exact hv

/-! ## parseMML: the notes stay within the array -/

theorem noteBody_next_notes_le (maxNotes : Nat) (st st1 : ParseState) (c : Char)
    (cs : List Char) (h : noteBody maxNotes st c cs = .next st1)
    (hle : st.notes.length ≤ maxNotes) : st1.notes.length ≤ maxNotes := by
  unfold noteBody at h
  simp only at h
  split_ifs at h <;> cases h <;>
    (simp only [List.length_append, List.length_singleton]; omega)

theorem loopBody_next_notes_le (strtod : List Char → Nat × Bool) (maxNotes : Nat)
    (st st1 : ParseState) (ch : Char) (cs : List Char)
    (h : loopBody strtod maxNotes st ch cs = .next st1)
    (hle : st.notes.length ≤ maxNotes) : st1.notes.length ≤ maxNotes := by
  unfold loopBody at h
  simp only at h
  split_ifs at h <;> first
    | exact noteBody_next_notes_le maxNotes st st1 _ cs h hle
    | (cases h; exact hle)

theorem parseLoop_ok_length (strtod : List Char → Nat × Bool) (maxNotes : Nat) (fuel : Nat) :
    ∀ (st : ParseState) (notes : List SeqNote),
      parseLoop strtod maxNotes fuel st = some (.ok notes) →
      st.notes.length ≤ maxNotes → notes.length ≤ maxNotes := by
  induction fuel with
  | zero => intro st notes h; simp [parseLoop] at h
  | succ fuel ih =>
    intro st notes h hle
    unfold parseLoop at h
    split at h
    · have h1 := ParseResult.ok.inj (Option.some.inj h)
      rw [← h1]; exact hle
    · split_ifs at h
      · have h1 := ParseResult.ok.inj (Option.some.inj h)
        rw [← h1]; exact hle
      · split at h
        · rename_i r hr
          have hr1 : r = .ok notes := Option.some.inj h
          subst hr1
          unfold loopBody at hr
          simp only at hr
          split_ifs at hr <;> first
            | cases hr
            | (unfold noteBody at hr; simp only at hr; split_ifs at hr <;> cases hr)
        · rename_i st1 hst
          exact ih st1 notes h (loopBody_next_notes_le strtod maxNotes st st1 _ _ hst hle)

theorem parseMML_ok_length (strtod : List Char → Nat × Bool) (maxNotes : Nat)
    (mml : List Char) (notes : List SeqNote)
    (h : parseMML strtod maxNotes mml = some (.ok notes)) : notes.length ≤ maxNotes :=
  parseLoop_ok_length strtod maxNotes _ _ notes h (Nat.zero_le _)

/-! ## Helper lemmas for the claims about the search -/

theorem byteAt_range (inFile : List byte) (pos : Nat) :
    0 ≤ byteAt inFile pos ∧ byteAt inFile pos ≤ 255 := by
  unfold byteAt
  have := (inFile.getD pos 0).isLt
  omega

theorem delta_zero (notes : List SeqNote) : delta notes 0 = 0 := by
  simp [delta]

theorem searchNotes_done (strtod : List Char → Nat × Bool) (glQuiet : Bool)
    (inFile : List byte) (mml : List Char) (g : Nat) (notes : List SeqNote)
    (hg1 : 1 ≤ g) (hg16 : g ≤ 16) (hparse : parseMML strtod 512 mml = some (.ok notes)) :
    searchNotes strtod glQuiet inFile mml g =
      some (.done (searchParsed glQuiet inFile notes g).found
        (searchParsed glQuiet inFile notes g).lines) := by
  unfold searchNotes
  rw [if_neg (by omega), if_neg (by omega), hparse]

/-- An offset is reported exactly when it lies in the file and the
earliest-anchor sequence for the wrapped targets is defined. -/
theorem reported_iff_anchors (glQuiet : Bool) (inFile : List byte) (notes : List SeqNote)
    (g s : Nat) (hn : 1 ≤ notes.length) (hcap : notes.length ≤ 512) (hg : g ≤ 16) :
    Reported (searchParsed glQuiet inFile notes g).lines s ↔
      s < inFile.length ∧
      (earliestAnchors inFile s g
        ((List.range (notes.length - 1)).map
          (fun i => (byteAt inFile s + delta notes (i + 1)) % 256)) 0).isSome = true := by
  unfold searchParsed
  rw [reported_iff]
  constructor
  · rintro ⟨hs, h⟩
    exact ⟨hs, (offsetBody_iff glQuiet inFile notes g s hn hcap hg hs).mp h⟩
  · rintro ⟨hs, h⟩
    exact ⟨hs, (offsetBody_iff glQuiet inFile notes g s hn hcap hg hs).mpr h⟩

/-- Positions that follow the gap bound, hold the raw sums and are each the
first occurrence of their target after the previous position make the offset
reported. -/
theorem reported_of_first_occurrences (glQuiet : Bool) (inFile : List byte)
    (notes : List SeqNote) (g s : Nat) (hn : 1 ≤ notes.length) (hcap : notes.length ≤ 512)
    (hg : g ≤ 16) (p : Nat → Nat) (hp0 : p 0 = s)
    (hgap : ∀ i, i + 1 < notes.length → p i < p (i + 1) ∧ p (i + 1) ≤ p i + g)
    (hbyte : ∀ i, i < notes.length → p i < inFile.length ∧
      byteAt inFile (p i) = byteAt inFile s + delta notes i)
    (hfirst : ∀ i, i + 1 < notes.length → ∀ pos, p i < pos → pos < p (i + 1) →
      byteAt inFile pos ≠ byteAt inFile s + delta notes (i + 1)) :
    Reported (searchParsed glQuiet inFile notes g).lines s := by
  rw [reported_iff_anchors glQuiet inFile notes g s hn hcap hg]
  have hs : s < inFile.length := by
    have := (hbyte 0 (by omega)).1
    rwa [hp0] at this
  refine ⟨hs, ?_⟩
  have hge : ∀ i, i < notes.length → s ≤ p i := by
    intro i
    induction i with
    | zero => intro _; omega
    | succ j ih =>
      intro hj
      have := ih (by omega)
      have := (hgap j hj).1
      omega
  have hmod : ∀ i, i < notes.length →
      (byteAt inFile s + delta notes i) % 256 = byteAt inFile s + delta notes i := by
    intro i hi
    have h1 := (hbyte i hi).2
    have h2 := byteAt_range inFile (p i)
    exact Int.emod_eq_of_lt (by omega) (by omega)
  apply earliestAnchors_of_chain inFile s g _ 0 (fun i => p i - s) (by simp [hp0])
  intro i hi
  have hi1 : i + 1 < notes.length := by
    simp only [List.length_map, List.length_range] at hi
    omega
  have hgi := hgap i hi1
  have hsi := hge i (by omega)
  have hsi1 := hge (i + 1) hi1
  simp only [List.getElem_map, List.getElem_range]
  rw [hmod (i + 1) hi1]
  refine ⟨by omega, by omega, ?_, ?_⟩
  · rw [byteIs_byteAt]
    have hpos : s + (p (i + 1) - s) = p (i + 1) := by omega
    rw [hpos]
    exact hbyte (i + 1) hi1
  · intro off ho1 ho2
    have hne := hfirst i hi1 (s + off) (by omega) (by omega)
    cases hb : byteIs inFile (s + off) (byteAt inFile s + delta notes (i + 1)) with
    | false => rfl
    | true => exact absurd ((byteIs_byteAt inFile _ _).mp hb).2 hne

/-- The line printed for an offset at which the body of the offset loop prints. -/
theorem offsetBody_line (glQuiet : Bool) (inFile : List byte) (notes : List SeqNote)
    (g : Int) (s : Nat) (h : (offsetBody glQuiet inFile notes g s).isSome = true) :
    offsetBody glQuiet inFile notes g s =
      some (if glQuiet then .quiet s
        else .full s ((fgetc inFile s).getD 255)
          (notes.tail.map (fun n => ((((fgetc inFile s).getD 255).val : Nat) : Int) + n.key))) := by
  unfold offsetBody at h ⊢
  simp only at h ⊢
  split_ifs at h ⊢
  · rfl
  · rfl
  · exact absurd h (by simp)

/-! ## Scanning lemmas for the parser -/

theorem loopBody_noteLetter (strtod : List Char → Nat × Bool) (maxNotes : Nat)
    (st : ParseState) (x : Char) (cs : List Char) (hx : x ∈ noteLetters) :
    loopBody strtod maxNotes st x cs = noteBody maxNotes st (tolower x) cs := by
  simp only [noteLetters, List.mem_cons, List.mem_singleton, List.not_mem_nil, or_false] at hx
  rcases hx with h | h | h | h | h | h | h | h | h | h | h | h | h | h <;> subst h <;>
    simp [loopBody, tolower, isspace]

theorem noteLetter_key (x : Char) (hx : x ∈ noteLetters) :
    (decide ('a' ≤ tolower x) && decide (tolower x ≤ 'g')) = true ∧
      keys.getD ((tolower x).toNat - 'a'.toNat) 0 = classOffset x := by
  simp only [noteLetters, List.mem_cons, List.mem_singleton, List.not_mem_nil, or_false] at hx
  rcases hx with h | h | h | h | h | h | h | h | h | h | h | h | h | h <;> subst h <;> decide

theorem scanModifiers_run (key : Int) (m rest : List Char)
    (hm : ∀ c ∈ m, c = '+' ∨ c = '-')
    (hrest : ∀ c ∈ rest.head?, ¬ (c = '+' ∨ c = '-')) :
    scanModifiers key (m ++ rest) = (key + m.length, rest) := by
  induction m generalizing key with
  | nil =>
    cases rest with
    | nil => simp [scanModifiers]
    | cons c t =>
      have := hrest c (by simp)
      simp [scanModifiers, this]
  | cons c t ih =>
    have hc := hm c (by simp)
    have ht := ih (key + 1) (fun c hc => hm c (List.mem_cons_of_mem _ hc))
    rw [List.cons_append]
    unfold scanModifiers
    rw [if_pos hc]
    rcases hc with h | h
    · rw [if_pos h, ht]; simp; ring
    · subst h
      rw [if_neg (by decide), if_pos rfl, ht]; simp; ring

theorem shiftRight_eq_ediv (b : Int) (n : Nat) : b >>> n = b / 2 ^ n := by
  rw [Int.shiftRight_eq_div_pow]; norm_cast

theorem toInt32_of_range (v : Int) (h1 : INT_MIN ≤ v) (h2 : v ≤ INT_MAX) : toInt32 v = v := by
  unfold INT_MIN at h1
  unfold INT_MAX at h2
  unfold toInt32
  omega

theorem toInt32_range (v : Int) : INT_MIN ≤ toInt32 v ∧ toInt32 v ≤ INT_MAX := by
  unfold INT_MIN INT_MAX toInt32
  omega

theorem clampLong_of_range (v : Int) (h1 : LONG_MIN ≤ v) (h2 : v ≤ LONG_MAX) :
    clampLong v = v := by
  unfold clampLong
  rw [if_neg (by omega), if_neg (by omega)]

theorem classOffset_range (x : Char) : 0 ≤ classOffset x ∧ classOffset x ≤ 11 := by
  unfold classOffset
  split_ifs <;> omega

theorem shiftRight_nonneg (b : Int) (k : Nat) (hb : 0 ≤ b) : 0 ≤ b >>> k := by
  rw [shiftRight_eq_ediv]
  exact Int.ediv_nonneg hb (by positivity)

theorem scanDots_ge (base : Int) (hb : 0 ≤ base) (cs : List Char) :
    ∀ (duration : Int) (dotCount : Nat), duration ≤ (scanDots base duration dotCount cs).1 := by
  induction cs with
  | nil => intro d n; simp [scanDots]
  | cons c t ih =>
    intro d n
    unfold scanDots
    split_ifs
    · have h1 := ih (d + (base >>> ((n + 1) % 32))) (n + 1)
      have h2 := shiftRight_nonneg base ((n + 1) % 32) hb
      omega
    · exact le_refl _

theorem scanDots_zero (cs : List Char) :
    ∀ (duration : Int) (dotCount : Nat), (scanDots 0 duration dotCount cs).1 = duration := by
  induction cs with
  | nil => intro d n; simp [scanDots]
  | cons c t ih =>
    intro d n
    unfold scanDots
    split_ifs
    · rw [ih]; simp
    · rfl

theorem scanDots_run (base : Int) (k : Nat) :
    ∀ (duration : Int) (dotCount : Nat), dotCount + k ≤ 31 →
      scanDots base duration dotCount (List.replicate k '.') =
        (duration + ((List.range k).map (fun j => base / 2 ^ (dotCount + j + 1))).sum, []) := by
  induction k with
  | zero => intro d n _; simp [scanDots]
  | succ k ih =>
    intro d n hn
    have hmod : (n + 1) % 32 = n + 1 := Nat.mod_eq_of_lt (by omega)
    simp only [List.replicate_succ, scanDots, if_true, hmod]
    rw [ih _ _ (by omega), List.range_succ_eq_map, List.map_cons, List.sum_cons, List.map_map,
      shiftRight_eq_ediv]
    simp only [Prod.mk.injEq, and_true]
    have : (fun j => base / 2 ^ (n + 1 + j + 1)) =
        ((fun j => base / 2 ^ (n + j + 1)) ∘ Nat.succ) := by
      funext j; simp only [Function.comp, Nat.succ_eq_add_one]; congr 2; omega
    rw [this]
    simp only [Nat.add_zero]
    ring

theorem dottedDuration_zero (k : Nat) : dottedDuration 0 k = 0 := by
  simp [dottedDuration]

/-- With at most 31 dots, or with the base duration 0, the dots add what the
dotted-note formula says. -/
theorem scanDots_dotted (base : Int) (k : Nat) (hk : k ≤ 31 ∨ base = 0) :
    (scanDots base base 0 (List.replicate k '.')).1 = dottedDuration base k := by
  rcases hk with hk | hk
  · rw [scanDots_run base k base 0 (by omega)]
    simp [dottedDuration]
  · subst hk
    rw [scanDots_zero, dottedDuration_zero]

theorem isDigit_not_space (c : Char) (h : c.isDigit = true) :
    isspace c = false ∧ c ≠ '-' ∧ c ≠ '+' ∧ c ≠ '.' := by
  refine ⟨?_, ?_, ?_, ?_⟩
  · cases hs : isspace c with
    | false => rfl
    | true =>
      simp only [isspace, Bool.or_eq_true, beq_iff_eq] at hs
      rcases hs with ((((hs | hs) | hs) | hs) | hs) | hs <;> subst hs <;> exact absurd h (by decide)
  all_goals (intro hc; subst hc; exact absurd h (by decide))

theorem digitChar_isDigit (d : Nat) (hd : d < 10) :
    (Nat.digitChar d).isDigit = true ∧ (Nat.digitChar d).toNat - '0'.toNat = d := by
  interval_cases d <;> decide

theorem strtolDigits_stop (acc : Nat) (rest : List Char)
    (hrest : ∀ c ∈ rest.head?, c.isDigit = false) : strtolDigits acc rest = (acc, 0) := by
  cases rest with
  | nil => rfl
  | cons c t =>
    have := hrest c (by simp)
    simp [strtolDigits, this]

theorem strtolDigits_append (xs rest : List Char) (hxs : ∀ c ∈ xs, c.isDigit = true)
    (hrest : ∀ c ∈ rest.head?, c.isDigit = false) :
    ∀ acc, strtolDigits acc (xs ++ rest) =
      (xs.foldl (fun a c => a * 10 + (c.toNat - '0'.toNat)) acc, xs.length) := by
  induction xs with
  | nil => intro acc; simpa using strtolDigits_stop acc rest hrest
  | cons c t ih =>
    intro acc
    have hc := hxs c (by simp)
    rw [List.cons_append]
    unfold strtolDigits
    rw [if_pos hc, ih (fun c hc => hxs c (List.mem_cons_of_mem _ hc))]
    simp

theorem toDigitsCore_spec (f : Nat) :
    ∀ (n : Nat) (ds : List Char), n < f →
      ∃ D : List Char, Nat.toDigitsCore 10 f n ds = D ++ ds ∧ D ≠ [] ∧
        (∀ c ∈ D, c.isDigit = true) ∧
        ∀ acc, D.foldl (fun a c => a * 10 + (c.toNat - '0'.toNat)) acc =
          acc * 10 ^ D.length + n := by
  induction f with
  | zero => intro n ds h; omega
  | succ f ih =>
    intro n ds hn
    have hd := digitChar_isDigit (n % 10) (Nat.mod_lt _ (by decide))
    unfold Nat.toDigitsCore
    simp only
    by_cases h0 : n / 10 = 0
    · rw [if_pos h0]
      refine ⟨[Nat.digitChar (n % 10)], rfl, by simp, ?_, ?_⟩
      · intro c hc
        rw [List.mem_singleton] at hc
        rw [hc]; exact hd.1
      · intro acc
        simp only [List.foldl_cons, List.foldl_nil, List.length_singleton, pow_one, hd.2]
        have : n % 10 = n := Nat.mod_eq_of_lt (by omega)
        omega
    · rw [if_neg h0]
      obtain ⟨D, hD, hne, hdig, hval⟩ := ih (n / 10) (Nat.digitChar (n % 10) :: ds) (by omega)
      refine ⟨D ++ [Nat.digitChar (n % 10)], by rw [hD]; simp, by simp, ?_, ?_⟩
      · intro c hc
        rw [List.mem_append, List.mem_singleton] at hc
        rcases hc with hc | hc
        · exact hdig c hc
        · rw [hc]; exact hd.1
      · intro acc
        rw [List.foldl_append, hval]
        simp only [List.foldl_cons, List.foldl_nil, List.length_append, List.length_singleton,
          hd.2, pow_succ]
        have := Nat.div_add_mod n 10
        nlinarith [this]

theorem decimal_spec (n : Nat) :
    decimal n ≠ [] ∧ (∀ c ∈ decimal n, c.isDigit = true) ∧
      (decimal n).foldl (fun a c => a * 10 + (c.toNat - '0'.toNat)) 0 = n := by
  obtain ⟨D, hD, hne, hdig, hval⟩ := toDigitsCore_spec (n + 1) n [] (by omega)
  have : decimal n = D := by
    unfold decimal Nat.toDigits
    rw [hD]; simp
  rw [this]
  refine ⟨hne, hdig, ?_⟩
  rw [hval]; simp

theorem strtol_no_digit (s : List Char)
    (hs : ∀ c ∈ s.head?, isspace c = false ∧ c ≠ '-' ∧ c ≠ '+' ∧ c.isDigit = false) :
    strtol s = (0, 0) := by
  cases s with
  | nil => simp [strtol, strtolDigits]
  | cons c t =>
    obtain ⟨h1, h2, h3, h4⟩ := hs c (by simp)
    simp [strtol, h1, h2, h3, strtolDigits, h4]

theorem strtol_decimal (n : Nat) (rest : List Char)
    (hrest : ∀ c ∈ rest.head?, c.isDigit = false) :
    strtol (decimal n ++ rest) = (clampLong (n : Int), (decimal n).length) := by
  obtain ⟨hne, hdig, hval⟩ := decimal_spec n
  have hrun := strtolDigits_append (decimal n) rest hdig hrest 0
  rw [hval] at hrun
  cases hd : decimal n with
  | nil => exact absurd hd hne
  | cons c t =>
    rw [hd] at hrun hdig
    obtain ⟨h1, h2, h3, _⟩ := isDigit_not_space c (hdig c (by simp))
    simp only [List.cons_append] at hrun ⊢
    simp [strtol, h1, h2, h3, hrun]

/-! ## One note token -/

theorem parseLoop_nil (strtod : List Char → Nat × Bool) (maxNotes fuel : Nat)
    (st : ParseState) (h : st.rest = []) :
    parseLoop strtod maxNotes (fuel + 1) st = some (.ok st.notes) := by
  unfold parseLoop
  rw [h]

theorem parseLoop_next (strtod : List Char → Nat × Bool) (maxNotes fuel : Nat)
    (st st1 : ParseState) (ch : Char) (cs : List Char) (h : st.rest = ch :: cs)
    (hch : ch ≠ '\x00') (hbody : loopBody strtod maxNotes st ch cs = .next st1) :
    parseLoop strtod maxNotes (fuel + 1) st = parseLoop strtod maxNotes fuel st1 := by
  conv_lhs => unfold parseLoop
  rw [h]
  simp only [if_neg hch, hbody]

theorem parseLoop_stop (strtod : List Char → Nat × Bool) (maxNotes fuel : Nat)
    (st : ParseState) (r : ParseResult) (ch : Char) (cs : List Char) (h : st.rest = ch :: cs)
    (hch : ch ≠ '\x00') (hbody : loopBody strtod maxNotes st ch cs = .stop r) :
    parseLoop strtod maxNotes (fuel + 1) st = some r := by
  conv_lhs => unfold parseLoop
  rw [h]
  simp only [if_neg hch, hbody]

theorem noteLetter_ne_nul (x : Char) (hx : x ∈ noteLetters) : x ≠ '\x00' := by
  intro h; subst h; exact absurd hx (by decide)

theorem dots_tokenEnd_head (k : Nat) (tl : List Char) (htl : TokenEnd tl) :
    ∀ c ∈ (List.replicate k '.' ++ tl).head?,
      ¬ (c = '+' ∨ c = '-') ∧ c.isDigit = false ∧ isspace c = false := by
  intro c hc
  cases k with
  | zero =>
    simp only [List.replicate_zero, List.nil_append] at hc
    obtain ⟨h1, h2, _, h4, h5⟩ := htl c hc
    exact ⟨by simp [h1, h2], h4, h5⟩
  | succ k =>
    simp only [List.replicate_succ, List.cons_append, List.head?_cons, Option.mem_def,
      Option.some.injEq] at hc
    subst hc
    decide

theorem scanDots_tail (base : Int) (k : Nat) (tl : List Char) (htl : TokenEnd tl) :
    ∀ (duration : Int) (dotCount : Nat),
      scanDots base duration dotCount (List.replicate k '.' ++ tl) =
        ((scanDots base duration dotCount (List.replicate k '.')).1, tl) := by
  induction k with
  | zero =>
    intro d n
    cases tl with
    | nil => simp [scanDots]
    | cons c t =>
      have := (htl c (by simp)).2.2.1
      simp [scanDots, this]
  | succ k ih =>
    intro d n
    simp only [List.replicate_succ, List.cons_append, scanDots, if_true]
    exact ih _ _

/-- A note token `x`, modifiers `m`, length text `digs` and `k` dots, read by the
note branch in any state with room in the array. -/
theorem noteBody_run (maxNotes : Nat) (st : ParseState) (x : Char) (m digs tl : List Char)
    (k : Nat) (L : Int) (hx : x ∈ noteLetters) (hm : ∀ c ∈ m, c = '+' ∨ c = '-')
    (hlen : LengthText st.defaultLength digs L) (hL : 0 < L)
    (hk : k ≤ 31 ∨ 48 * 4 / L = 0) (htl : TokenEnd tl)
    (hroom : st.notes.length < maxNotes) :
    noteBody maxNotes st (tolower x) (m ++ (digs ++ (List.replicate k '.' ++ tl))) =
      .next { rest := tl, time := st.time + dottedDuration (48 * 4 / L) k,
              octave := st.octave, defaultLength := st.defaultLength,
              notes := st.notes ++
                [⟨st.time, toInt32 (classOffset x + 12 * st.octave) + m.length,
                  dottedDuration (48 * 4 / L) k⟩] } := by
  obtain ⟨hnote, hkey⟩ := noteLetter_key x hx
  have hdots := dots_tokenEnd_head k tl htl
  have hbase : Int.tdiv (timebase * 4) L = 48 * 4 / L := by
    unfold timebase
    exact Int.tdiv_eq_ediv (by decide) (le_of_lt hL)
  have hscan : scanDots (48 * 4 / L) (48 * 4 / L) 0 (List.replicate k '.' ++ tl) =
      (dottedDuration (48 * 4 / L) k, tl) := by
    rw [scanDots_tail _ k tl htl, scanDots_dotted _ k hk]
  have hstr : (if (strtol (digs ++ (List.replicate k '.' ++ tl))).2 = 0 then st.defaultLength
        else toInt32 (strtol (digs ++ (List.replicate k '.' ++ tl))).1) = L ∧
      (digs ++ (List.replicate k '.' ++ tl)).drop
        (strtol (digs ++ (List.replicate k '.' ++ tl))).2 = List.replicate k '.' ++ tl := by
    rcases hlen with ⟨hd, hLd⟩ | ⟨n, hd, hLn⟩
    · subst hd
      have h0 : strtol (List.replicate k '.' ++ tl) = (0, 0) :=
        strtol_no_digit _ (fun c hc => by
          obtain ⟨h1, h2, h3⟩ := hdots c hc
          exact ⟨h3, fun h => h1 (Or.inr h), fun h => h1 (Or.inl h), h2⟩)
      simp [h0, hLd]
    · subst hd
      have h0 := strtol_decimal n (List.replicate k '.' ++ tl) (fun c hc => (hdots c hc).2.1)
      have hne := (decimal_spec n).1
      have hpos : (decimal n).length ≠ 0 := by
        intro h; exact hne (List.length_eq_zero.mp h)
      rw [h0]
      simp [hpos, hLn]
  have hmod : scanModifiers (toInt32 (classOffset x + st.octave * 12))
      (m ++ (digs ++ (List.replicate k '.' ++ tl))) =
      (toInt32 (classOffset x + st.octave * 12) + m.length,
        digs ++ (List.replicate k '.' ++ tl)) := by
    apply scanModifiers_run _ _ _ hm
    intro c hc
    rcases hlen with ⟨hd, _⟩ | ⟨n, hd, _⟩
    · subst hd; exact (hdots c hc).1
    · subst hd
      obtain ⟨hne, hdig, _⟩ := decimal_spec n
      cases hdn : decimal n with
      | nil => exact absurd hdn hne
      | cons d t =>
        rw [hdn] at hc hdig
        simp only [List.cons_append, List.head?_cons, Option.mem_def, Option.some.injEq] at hc
        subst hc
        obtain ⟨_, h2, h3, _⟩ := isDigit_not_space d (hdig d (by simp))
        simp [h2, h3]
  unfold noteBody
  simp only [hnote, hkey, if_true, hmod, hstr.1, hstr.2, hbase, hscan, if_neg (ne_of_gt hL),
    if_neg (not_le.mpr hL), if_pos hroom]
  rw [mul_comm st.octave 12]

/-- A note token at the end of the text, read by the loop from any state with
room in the array. -/
theorem parseLoop_last_note (strtod : List Char → Nat × Bool) (maxNotes fuel : Nat)
    (st : ParseState) (x : Char) (m digs : List Char) (k : Nat) (L : Int)
    (hrest : st.rest = x :: (m ++ (digs ++ (List.replicate k '.' ++ []))))
    (hx : x ∈ noteLetters) (hm : ∀ c ∈ m, c = '+' ∨ c = '-')
    (hlen : LengthText st.defaultLength digs L) (hL : 0 < L)
    (hk : k ≤ 31 ∨ 48 * 4 / L = 0) (hroom : st.notes.length < maxNotes) :
    parseLoop strtod maxNotes (fuel + 2) st =
      some (.ok (st.notes ++
        [⟨st.time, toInt32 (classOffset x + 12 * st.octave) + m.length,
          dottedDuration (48 * 4 / L) k⟩])) := by
  have hbody := noteBody_run maxNotes st x m digs [] k L hx hm hlen hL hk
    (fun c hc => absurd hc (by simp)) hroom
  rw [← loopBody_noteLetter strtod maxNotes st x _ hx] at hbody
  rw [parseLoop_next strtod maxNotes (fuel + 1) st _ x _ hrest (noteLetter_ne_nul x hx) hbody]
  rw [parseLoop_nil strtod maxNotes fuel _ rfl]

/-! ## Rests and the clock -/

theorem parseLoop_space (strtod : List Char → Nat × Bool) (maxNotes : Nat) (st : ParseState)
    (ch : Char) (cs : List Char) (h : st.rest = ch :: cs) (hsp : isspace (tolower ch) = true) :
    ∀ fuel, parseLoop strtod maxNotes fuel st = none := by
  have hch : ch ≠ '\x00' := by
    intro h0; subst h0; exact absurd hsp (by decide)
  have hbody : loopBody strtod maxNotes st ch cs = .next st := by
    unfold loopBody
    simp only [hsp, if_true]
  intro fuel
  induction fuel with
  | zero => rfl
  | succ fuel ih => rw [parseLoop_next strtod maxNotes fuel st st ch cs h hch hbody, ih]

theorem notesFrom_eq (toks : List Token) :
    ∀ time, notesFrom time toks =
      (List.range toks.length).filterMap
        (fun j => noteOfToken (time + durationBefore toks j) toks[j]?) := by
  induction toks with
  | nil => intro time; rfl
  | cons tok toks ih =>
    intro time
    rw [List.length_cons, List.range_succ_eq_map, List.filterMap_cons, List.filterMap_map]
    have hshift : ((fun j => noteOfToken (time + durationBefore (tok :: toks) j)
        (tok :: toks)[j]?) ∘ Nat.succ) =
        (fun j => noteOfToken (time + tok.duration + durationBefore toks j) toks[j]?) := by
      funext j
      simp only [Function.comp, List.getElem?_cons_succ, durationBefore, List.take_succ_cons,
        List.map_cons, List.sum_cons, add_assoc]
    rw [hshift]
    have h0 : durationBefore (tok :: toks) 0 = 0 := by simp [durationBefore]
    rw [List.getElem?_cons_zero, h0]
    cases tok with
    | pitched key d =>
      have h1 : noteOfToken (time + 0) (some (Token.pitched key d)) = some ⟨time, key, d⟩ := by
        simp [noteOfToken]
      rw [h1, notesFrom, ih]
      rfl
    | rest d =>
      have h1 : noteOfToken (time + 0) (some (Token.rest d)) = none := rfl
      rw [h1, notesFrom, ih]
      rfl

theorem notesFrom_zero (toks : List Token) : notesFrom 0 toks = notesOfTokens toks := by
  rw [notesFrom_eq]
  unfold notesOfTokens
  simp only [zero_add]


theorem scanModifiers_snd (key : Int) (cs : List Char) :
    (scanModifiers key cs).2 = cs.dropWhile (fun c => decide (c = '+' ∨ c = '-')) := by
  induction cs generalizing key with
  | nil => rfl
  | cons c t ih =>
    unfold scanModifiers
    by_cases hc : c = '+' ∨ c = '-'
    · rw [if_pos hc, List.dropWhile_cons_of_pos (by simpa using hc)]
      split_ifs <;> exact ih _
    · rw [if_neg hc, List.dropWhile_cons_of_neg (by simpa using hc)]

theorem noteBody_tokenAt (maxNotes : Nat) (st st1 : ParseState) (c : Char) (cs : List Char)
    (hc : ((decide ('a' ≤ c) && decide (c ≤ 'g')) || c = 'r' || c = '^') = true)
    (h : noteBody maxNotes st c cs = .next st1) :
    ((decide ('a' ≤ c) && decide (c ≤ 'g')) || c = 'r') = true ∧
      st1 = { rest := (tokenAt st.octave st.defaultLength c cs).2,
              time := st.time + (tokenAt st.octave st.defaultLength c cs).1.duration,
              octave := st.octave, defaultLength := st.defaultLength,
              notes := st.notes ++
                notesFrom st.time [(tokenAt st.octave st.defaultLength c cs).1] } := by
  unfold noteBody at h
  simp only at h
  by_cases hnote : (decide ('a' ≤ c) && decide (c ≤ 'g')) = true
  · have hr : c ≠ 'r' := by
      intro hr; subst hr; exact absurd hnote (by decide)
    simp only [hnote, if_true] at h
    split_ifs at h <;> cases h <;>
      simp_all [tokenAt, notesFrom, Token.duration]
  · have hnote1 : (decide ('a' ≤ c) && decide (c ≤ 'g')) = false := by
      simpa using hnote
    simp only [hnote1, Bool.false_or, Bool.or_eq_true, decide_eq_true_eq] at hc
    simp only [hnote1, Bool.false_eq_true, if_false] at h
    split_ifs at h <;> cases h <;>
      simp_all [tokenAt, notesFrom, Token.duration, scanModifiers_snd]

theorem notesFrom_append (pre toks : List Token) :
    ∀ time, notesFrom time (pre ++ toks) =
      notesFrom time pre ++ notesFrom (time + (pre.map Token.duration).sum) toks := by
  induction pre with
  | nil => intro time; simp [notesFrom]
  | cons tok pre ih =>
    intro time
    cases tok with
    | pitched key d =>
      show notesFrom time (Token.pitched key d :: (pre ++ toks)) = _
      rw [notesFrom, ih]
      simp [notesFrom, Token.duration, add_assoc]
    | rest d =>
      show notesFrom time (Token.rest d :: (pre ++ toks)) = _
      rw [notesFrom, ih]
      simp [notesFrom, Token.duration, add_assoc]

theorem loopBody_stop_ne_ok (strtod : List Char → Nat × Bool) (maxNotes : Nat)
    (st : ParseState) (ch : Char) (cs : List Char) (notes : List SeqNote) :
    loopBody strtod maxNotes st ch cs ≠ .stop (.ok notes) := by
  intro hr
  unfold loopBody at hr
  simp only at hr
  split_ifs at hr <;> first
    | cases hr
    | (unfold noteBody at hr; simp only at hr; split_ifs at hr <;> cases hr)

theorem tokens_succ_cons (strtod : List Char → Nat × Bool) (fuel : Nat)
    (octave defaultLength : Int) (ch : Char) (cs : List Char) :
    tokens strtod (fuel + 1) octave defaultLength (ch :: cs) =
      if isspace (tolower ch) then tokens strtod fuel octave defaultLength cs
      else if tolower ch = 't' then
        tokens strtod fuel octave defaultLength (cs.drop (strtod cs).1)
      else if tolower ch = 'o' then
        tokens strtod fuel (toInt32 (strtol cs).1) defaultLength (cs.drop (strtol cs).2)
      else if tolower ch = 'l' then
        tokens strtod fuel octave (toInt32 (strtol cs).1) (cs.drop (strtol cs).2)
      else if tolower ch = '<' then tokens strtod fuel (toInt32 (octave + 1)) defaultLength cs
      else if tolower ch = '>' then tokens strtod fuel (toInt32 (octave - 1)) defaultLength cs
      else if (decide ('a' ≤ tolower ch) && decide (tolower ch ≤ 'g')) || tolower ch = 'r' then
        (tokenAt octave defaultLength (tolower ch) cs).1 ::
          tokens strtod fuel octave defaultLength (tokenAt octave defaultLength (tolower ch) cs).2
      else [] := by
  rw [tokens]

theorem loopBody_next_tokens (strtod : List Char → Nat × Bool) (maxNotes fuel : Nat)
    (st st1 : ParseState) (ch : Char) (cs : List Char)
    (hsp : isspace (tolower ch) = false)
    (h : loopBody strtod maxNotes st ch cs = .next st1) :
    ∃ pre, tokens strtod (fuel + 1) st.octave st.defaultLength (ch :: cs) =
        pre ++ tokens strtod fuel st1.octave st1.defaultLength st1.rest ∧
      st1.notes = st.notes ++ notesFrom st.time pre ∧
      st1.time = st.time + (pre.map Token.duration).sum := by
  unfold loopBody at h
  simp only [hsp, Bool.false_eq_true, if_false] at h
  rw [tokens_succ_cons]
  simp only [hsp, Bool.false_eq_true, if_false]
  split_ifs at h with h1 h2 h3 h4 h5 h6 h7 h8 h9 h10 h11
  all_goals first
    | (cases h; refine ⟨[], ?_, by simp [notesFrom], by simp⟩; simp [*])
    | skip
  obtain ⟨htok, hst1⟩ := noteBody_tokenAt maxNotes st st1 (tolower ch) cs h11 h
  rw [if_pos htok]
  subst hst1
  exact ⟨[(tokenAt st.octave st.defaultLength (tolower ch) cs).1], by simp [*], rfl, by simp⟩


/-- The loop emits the notes of the tokens of the unread text, starting at the
clock of the state it is entered in. -/
theorem parseLoop_tokens (strtod : List Char → Nat × Bool) (maxNotes : Nat) (fuel : Nat) :
    ∀ (st : ParseState) (notes : List SeqNote),
      parseLoop strtod maxNotes fuel st = some (.ok notes) →
      notes = st.notes ++
        notesFrom st.time (tokens strtod fuel st.octave st.defaultLength st.rest) := by
  induction fuel with
  | zero => intro st notes h; simp [parseLoop] at h
  | succ fuel ih =>
    intro st notes h
    cases hrest : st.rest with
    | nil =>
      rw [parseLoop_nil strtod maxNotes fuel st hrest] at h
      have h1 := ParseResult.ok.inj (Option.some.inj h)
      simp [tokens, notesFrom, h1]
    | cons ch cs =>
      by_cases hch : ch = '\x00'
      · subst hch
        unfold parseLoop at h
        rw [hrest] at h
        simp only [if_true] at h
        have h1 := ParseResult.ok.inj (Option.some.inj h)
        have ht : tokens strtod (fuel + 1) st.octave st.defaultLength ('\x00' :: cs) = [] := by
          rw [tokens_succ_cons]
          simp [tolower, isspace]
        rw [ht]
        simp [notesFrom, h1]
      · cases hsp : isspace (tolower ch) with
        | true =>
          rw [parseLoop_space strtod maxNotes st ch cs hrest hsp] at h
          exact absurd h (by simp)
        | false =>
          cases hbody : loopBody strtod maxNotes st ch cs with
          | stop r =>
            rw [parseLoop_stop strtod maxNotes fuel st r ch cs hrest hch hbody] at h
            have h1 : r = .ok notes := Option.some.inj h
            rw [h1] at hbody
            exact absurd hbody (loopBody_stop_ne_ok strtod maxNotes st ch cs notes)
          | next st1 =>
            rw [parseLoop_next strtod maxNotes fuel st st1 ch cs hrest hch hbody] at h
            obtain ⟨pre, htok, hnotes, htime⟩ :=
              loopBody_next_tokens strtod maxNotes fuel st st1 ch cs hsp hbody
            rw [ih st1 notes h, htok, notesFrom_append, hnotes, htime, List.append_assoc]

/-! ## The fuel of parseMML is enough -/

theorem scanDots_length_le (base : Int) (cs : List Char) :
    ∀ (duration : Int) (dotCount : Nat),
      (scanDots base duration dotCount cs).2.length ≤ cs.length := by
  induction cs with
  | nil => intro d n; simp [scanDots]
  | cons c t ih =>
    intro d n
    unfold scanDots
    split_ifs
    · exact Nat.le_succ_of_le (ih _ _)
    · exact le_refl _

theorem scanModifiers_length_le (key : Int) (cs : List Char) :
    (scanModifiers key cs).2.length ≤ cs.length := by
  rw [scanModifiers_snd]
  exact (List.dropWhile_sublist _).length_le

theorem noteBody_rest_le (maxNotes : Nat) (st st1 : ParseState) (c : Char) (cs : List Char)
    (h : noteBody maxNotes st c cs = .next st1) : st1.rest.length ≤ cs.length := by
  have key : ∀ (k : Int) (b d : Int) (j : Nat),
      (scanDots b d 0 ((scanModifiers k cs).2.drop j)).2.length ≤ cs.length := by
    intro k b d j
    refine le_trans (scanDots_length_le _ _ _ _) ?_
    rw [List.length_drop]
    exact le_trans (Nat.sub_le _ _) (scanModifiers_length_le k cs)
  unfold noteBody at h
  simp only at h
  split_ifs at h <;> cases h <;> exact key _ _ _ _

theorem loopBody_rest_le (strtod : List Char → Nat × Bool) (maxNotes : Nat)
    (st st1 : ParseState) (ch : Char) (cs : List Char)
    (hsp : isspace (tolower ch) = false)
    (h : loopBody strtod maxNotes st ch cs = .next st1) : st1.rest.length ≤ cs.length := by
  unfold loopBody at h
  simp only [hsp, Bool.false_eq_true, if_false] at h
  split_ifs at h <;> first
    | exact noteBody_rest_le maxNotes st st1 _ cs h
    | (cases h; simp only [List.length_drop]; omega)

/-- A run of the loop that returns is reproduced by every run with at least
one unit of fuel more than characters left to read. -/
theorem parseLoop_fuel (strtod : List Char → Nat × Bool) (maxNotes : Nat) (fuel : Nat) :
    ∀ (st : ParseState) (r : ParseResult), parseLoop strtod maxNotes fuel st = some r →
      ∀ fuel1, st.rest.length + 1 ≤ fuel1 → parseLoop strtod maxNotes fuel1 st = some r := by
  induction fuel with
  | zero => intro st r h; simp [parseLoop] at h
  | succ fuel ih =>
    intro st r h fuel1 hf
    obtain ⟨f1, rfl⟩ : ∃ f1, fuel1 = f1 + 1 := ⟨fuel1 - 1, by omega⟩
    cases hrest : st.rest with
    | nil =>
      rw [parseLoop_nil strtod maxNotes fuel st hrest] at h
      rw [parseLoop_nil strtod maxNotes f1 st hrest, ← h]
    | cons ch cs =>
      by_cases hch : ch = '\x00'
      · subst hch
        unfold parseLoop at h ⊢
        rw [hrest] at h ⊢
        simpa using h
      · cases hsp : isspace (tolower ch) with
        | true =>
          rw [parseLoop_space strtod maxNotes st ch cs hrest hsp] at h
          exact absurd h (by simp)
        | false =>
          cases hbody : loopBody strtod maxNotes st ch cs with
          | stop r1 =>
            rw [parseLoop_stop strtod maxNotes fuel st r1 ch cs hrest hch hbody] at h
            rw [parseLoop_stop strtod maxNotes f1 st r1 ch cs hrest hch hbody, ← h]
          | next st1 =>
            rw [parseLoop_next strtod maxNotes fuel st st1 ch cs hrest hch hbody] at h
            rw [parseLoop_next strtod maxNotes f1 st st1 ch cs hrest hch hbody]
            have hle := loopBody_rest_le strtod maxNotes st st1 ch cs hsp hbody
            rw [hrest, List.length_cons] at hf
            exact ih st1 r h f1 (by omega)

/-- Whatever a run of the loop of `parseMML` returns, with any fuel, is what
`parseMML` returns. -/
theorem parseMML_of_parseLoop (strtod : List Char → Nat × Bool) (maxNotes fuel : Nat)
    (mml : List Char) (r : ParseResult)
    (h : parseLoop strtod maxNotes fuel (initialState mml) = some r) :
    parseMML strtod maxNotes mml = some r :=
  parseLoop_fuel strtod maxNotes fuel (initialState mml) r h (mml.length + 1) (le_refl _)

/-! ## Claims about the search -/

/-- C1 (soundness). For a melody that parses to `n ≥ 1` notes and a gap in
`[1,16]`, every offset `s` reported by `searchNotes` admits positions
`s = p 0 < p 1 < ... < p (n-1)`, all inside the file, with
`p (i+1) - p i ≤ maxNoteGap` and the byte at `p i` equal to
`(buffer[s] + delta_i) mod 256`. -/
theorem searchNotes_sound (strtod : List Char → Nat × Bool) (glQuiet : Bool)
    (inFile : List byte) (mml : List Char) (g : Nat) (notes : List SeqNote)
    (found : Bool) (lines : List Line) (s : Nat)
    (hg1 : 1 ≤ g) (hg16 : g ≤ 16)
    (hparse : parseMML strtod 512 mml = some (.ok notes)) (hn : 1 ≤ notes.length)
    (hrun : searchNotes strtod glQuiet inFile mml g = some (.done found lines))
    (hrep : Reported lines s) :
    ∃ p : Nat → Nat, p 0 = s ∧
      (∀ i, i + 1 < notes.length → p i < p (i + 1) ∧ p (i + 1) ≤ p i + g) ∧
      ∀ i, i < notes.length → p i < inFile.length ∧
        byteAt inFile (p i) = (byteAt inFile s + delta notes i) % 256 := by
  have hcap := parseMML_ok_length strtod 512 mml notes hparse
  rw [searchNotes_done strtod glQuiet inFile mml g notes hg1 hg16 hparse] at hrun
  have hlines : (searchParsed glQuiet inFile notes g).lines = lines := by
    have h1 := Option.some.inj hrun
    injection h1
  rw [← hlines, reported_iff_anchors glQuiet inFile notes g s hn hcap hg16] at hrep
  obtain ⟨hs, hanchors⟩ := hrep
  obtain ⟨q, hq0, hq⟩ := earliestAnchors_chain inFile s g _ 0 hanchors
  refine ⟨fun i => s + q i, by simp [hq0], fun i hi => ?_, fun i hi => ?_⟩
  · have := hq i (by simp; omega)
    dsimp only
    omega
  · cases i with
    | zero =>
      simp only [hq0, Nat.add_zero, delta_zero, Int.add_zero]
      have := byteAt_range inFile s
      exact ⟨hs, (Int.emod_eq_of_lt (by omega) (by omega)).symm⟩
    | succ j =>
      have hj := (hq j (by simp; omega)).2.2
      simp only [List.getElem_map, List.getElem_range] at hj
      exact (byteIs_byteAt inFile _ _).mp hj

/-- C2 (the earliest-anchor reference). For a pattern of `n ≥ 1` notes whose raw
sums `buffer[s] + delta_i` all lie in `[0,255]` and a gap in `[1,16]`, an offset
`s` of the file is reported if and only if the earliest-anchor sequence
(`a_0 = 0`, `a_i` the least offset in `[a_(i-1)+1, a_(i-1)+maxNoteGap]` inside the
file that holds `buffer[s] + delta_i`) is defined for every note; the reference
knows nothing of the latest occurrence. -/
theorem searchParsed_iff_earliestAnchors (glQuiet : Bool) (inFile : List byte)
    (notes : List SeqNote) (g s : Nat) (hn : 1 ≤ notes.length) (hcap : notes.length ≤ 512)
    (_hg1 : 1 ≤ g) (hg16 : g ≤ 16) (hs : s < inFile.length)
    (hrange : ∀ i, i < notes.length →
      0 ≤ byteAt inFile s + delta notes i ∧ byteAt inFile s + delta notes i ≤ 255) :
    Reported (searchParsed glQuiet inFile notes g).lines s ↔
      (earliestAnchors inFile s g (rawSums inFile s notes) 0).isSome = true := by
  rw [reported_iff_anchors glQuiet inFile notes g s hn hcap hg16,
    mod_targets inFile s notes hrange]
  exact ⟨fun h => h.2, fun h => ⟨hs, h⟩⟩

/-- C3, counterexample. In the file `[10, 11, 11, 0, 12]` the positions 0, 2, 4
reproduce the deltas `[0, 1, 2]` with gaps of 2, yet offset 0 is not reported
with `maxNoteGap = 2`: the window for the third note is anchored at the earliest
`11`, at position 1. -/
theorem searchParsed_not_complete :
    (∃ p : Nat → Nat, p 0 = 0 ∧
      (∀ i, i + 1 < 3 → p i < p (i + 1) ∧ p (i + 1) ≤ p i + 2) ∧
      ∀ i, i < 3 → p i < 5 ∧
        byteAt [10, 11, 11, 0, 12] (p i) =
          byteAt [10, 11, 11, 0, 12] 0 + delta [⟨0, 48, 48⟩, ⟨48, 49, 48⟩, ⟨96, 50, 48⟩] i) ∧
    ¬ Reported (searchParsed false [10, 11, 11, 0, 12]
        [⟨0, 48, 48⟩, ⟨48, 49, 48⟩, ⟨96, 50, 48⟩] 2).lines 0 := by
  refine ⟨⟨fun i => 2 * i, rfl, fun i hi => by dsimp only; omega, fun i hi => ?_⟩, ?_⟩
  · interval_cases i <;> exact ⟨by dsimp only; omega, by decide⟩
  · have h : (searchParsed false [10, 11, 11, 0, 12]
        [⟨0, 48, 48⟩, ⟨48, 49, 48⟩, ⟨96, 50, 48⟩] 2).lines = [] := by decide
    rw [h]
    rintro ⟨l, hl, _⟩
    exact absurd hl (by simp)

/-- C3, amended (completeness for first occurrences). For a pattern of `n ≥ 1`
notes and a gap in `[1,16]`, an offset `s` is reported whenever there are
positions `s = p 0 < p 1 < ... < p (n-1)` inside the file with
`p (i+1) - p i ≤ maxNoteGap` and `buffer[p i] = buffer[s] + delta_i` such that no
byte strictly between `p i` and `p (i+1)` holds `buffer[s] + delta_(i+1)`. -/
theorem searchParsed_complete_first_occurrences (glQuiet : Bool) (inFile : List byte)
    (notes : List SeqNote) (g s : Nat) (hn : 1 ≤ notes.length) (hcap : notes.length ≤ 512)
    (_hg1 : 1 ≤ g) (hg16 : g ≤ 16) (p : Nat → Nat) (hp0 : p 0 = s)
    (hgap : ∀ i, i + 1 < notes.length → p i < p (i + 1) ∧ p (i + 1) ≤ p i + g)
    (hbyte : ∀ i, i < notes.length → p i < inFile.length ∧
      byteAt inFile (p i) = byteAt inFile s + delta notes i)
    (hfirst : ∀ i, i + 1 < notes.length → ∀ pos, p i < pos → pos < p (i + 1) →
      byteAt inFile pos ≠ byteAt inFile s + delta notes (i + 1)) :
    Reported (searchParsed glQuiet inFile notes g).lines s :=
  reported_of_first_occurrences glQuiet inFile notes g s hn hcap hg16 p hp0 hgap hbyte hfirst

/-- C4, the code at a failing input. In the file `[7, 7]` the melody `co25e`
(deltas `[0, 256]`) has the raw sum `7 + 256 = 263` at every byte, outside
`[0,255]`, yet offset 0 is reported: the target is wrapped to `7` and the byte
range check does not leave the offset. -/
theorem searchNotes_reports_out_of_range_sum :
    parseMML (fun _ => (0, false)) 512 "co25e".toList =
      some (.ok [⟨0, 48, 48⟩, ⟨48, 304, 48⟩]) ∧
    searchNotes (fun _ => (0, false)) false [7, 7] "co25e".toList 1 =
      some (.done true [.full 0 7 [263]]) := by
  constructor <;> decide

/-- C6. With `maxNoteGap < 1` or `maxNoteGap > 16`, `searchNotes` prints no
offset and returns `false`, whatever the file and the melody string are. -/
theorem searchNotes_gap_out_of_range (strtod : List Char → Nat × Bool) (glQuiet : Bool)
    (inFile : List byte) (mml : List Char) (maxNoteDist : Int)
    (h : maxNoteDist < 1 ∨ maxNoteDist > 16) :
    searchNotes strtod glQuiet inFile mml maxNoteDist = some (.done false []) := by
  unfold searchNotes
  by_cases h1 : maxNoteDist < 1
  · rw [if_pos h1]
  · rw [if_neg h1, if_pos (by omega)]

/-- C5. An exact contiguous occurrence is always found: when the bytes
`buffer[s], ..., buffer[s+n-1]` lie in the file and `buffer[s+i] = buffer[s] +
delta_i` for every note, offset `s` is reported for every gap in `[1,16]`; the
line printed for it carries `buffer[s]` and then `buffer[s+1], ..., buffer[s+n-1]`
(in quiet mode, the offset alone). -/
theorem searchParsed_exact_occurrence (glQuiet : Bool) (inFile : List byte)
    (notes : List SeqNote) (g s : Nat) (hn : 1 ≤ notes.length) (hcap : notes.length ≤ 512)
    (hg1 : 1 ≤ g) (hg16 : g ≤ 16) (hfit : s + notes.length ≤ inFile.length)
    (hbytes : ∀ i, i < notes.length →
      byteAt inFile (s + i) = byteAt inFile s + delta notes i) :
    Reported (searchParsed glQuiet inFile notes g).lines s ∧
    Line.full s (inFile.getD s 0)
        ((List.range (notes.length - 1)).map (fun i => byteAt inFile (s + (i + 1)))) ∈
      (searchParsed false inFile notes g).lines ∧
    Line.quiet s ∈ (searchParsed true inFile notes g).lines := by
  have hs : s < inFile.length := by omega
  have hrep : ∀ q, Reported (searchParsed q inFile notes g).lines s := fun q =>
    reported_of_first_occurrences q inFile notes g s hn hcap hg16 (fun i => s + i) rfl
      (fun i _ => by dsimp only; omega)
      (fun i hi => ⟨by dsimp only; omega, hbytes i hi⟩)
      (fun i _ pos h1 h2 => by dsimp only at h1 h2; omega)
  have hline : ∀ q, offsetBody q inFile (normalize notes) g s ∈
      ((searchParsed q inFile notes g).lines.map some) := by
    intro q
    have h := (reported_iff q inFile (normalize notes) g s).mp (hrep q)
    obtain ⟨l, hl⟩ := Option.isSome_iff_exists.mp h.2
    rw [hl]
    apply List.mem_map.mpr
    refine ⟨l, ?_, rfl⟩
    unfold searchParsed
    rw [searchLoop_lines]
    exact List.mem_filterMap.mpr ⟨s, List.mem_range.mpr hs, hl⟩
  have hfb : (fgetc inFile (s : Int)).getD 255 = inFile.getD s 0 := by
    rw [fgetc_natCast, List.getElem?_eq_getElem hs, List.getD_eq_getElem _ _ hs]
    rfl
  have hvals : (normalize notes).tail.map
      (fun n => ((((fgetc inFile (s : Int)).getD 255).val : Nat) : Int) + n.key) =
      (List.range (notes.length - 1)).map (fun i => byteAt inFile (s + (i + 1))) := by
    have h1 : (normalize notes).tail.map
        (fun n => ((((fgetc inFile (s : Int)).getD 255).val : Nat) : Int) + n.key) =
        ((normalize notes).tail.map (fun n => n.key)).map
          (fun k => byteAt inFile s + k) := by
      rw [List.map_map]
      apply List.map_congr_left
      intro n _
      simp only [Function.comp]
      rw [fgetc_getD inFile s hs]
    rw [h1, normalize_tail_keys, List.map_map]
    have h2 : notes.tail.map ((fun k => byteAt inFile s + k) ∘ fun n => n.key - keyAt notes 0) =
        (List.range (notes.length - 1)).map (fun i => byteAt inFile s + delta notes (i + 1)) :=
      tail_keys_eq_range notes (fun d => byteAt inFile s + d)
    rw [h2]
    apply List.map_congr_left
    intro i hi
    rw [List.mem_range] at hi
    exact (hbytes (i + 1) (by omega)).symm
  refine ⟨hrep glQuiet, ?_, ?_⟩
  · have h := hline false
    have hsome := (reported_iff false inFile (normalize notes) g s).mp (hrep false)
    rw [offsetBody_line false inFile (normalize notes) g s hsome.2] at h
    simp only [Bool.false_eq_true, if_false] at h
    rw [hvals, hfb] at h
    obtain ⟨l, hl, hl1⟩ := List.mem_map.mp h
    rw [Option.some.inj hl1] at hl
    exact hl
  · have h := hline true
    have hsome := (reported_iff true inFile (normalize notes) g s).mp (hrep true)
    rw [offsetBody_line true inFile (normalize notes) g s hsome.2] at h
    simp only [if_true] at h
    obtain ⟨l, hl, hl1⟩ := List.mem_map.mp h
    rw [Option.some.inj hl1] at hl
    exact hl

/-- C1, witness: the file `[0x40, 0x44, 0x48]`, the melody `ceg+` and the gap 2. -/
theorem searchNotes_sound_witness :
    ∃ p : Nat → Nat, p 0 = 0 ∧
      (∀ i, i + 1 < 3 → p i < p (i + 1) ∧ p (i + 1) ≤ p i + 2) ∧
      ∀ i, i < 3 → p i < 3 ∧
        byteAt [0x40, 0x44, 0x48] (p i) =
          (byteAt [0x40, 0x44, 0x48] 0 +
            delta [⟨0, 48, 48⟩, ⟨48, 52, 48⟩, ⟨96, 56, 48⟩] i) % 256 :=
  searchNotes_sound (fun _ => (0, false)) false [0x40, 0x44, 0x48] "ceg+".toList 2
    [⟨0, 48, 48⟩, ⟨48, 52, 48⟩, ⟨96, 56, 48⟩] true [.full 0 0x40 [0x44, 0x48]] 0
    (by decide) (by decide) (by decide) (by decide) (by decide)
    ⟨.full 0 0x40 [0x44, 0x48], by simp, rfl⟩

/-- C2, witness: the file `[0x40, 0x44, 0x48]`, the deltas `[0, 4, 8]` and the
gap 2 at offset 0. -/
theorem searchParsed_iff_earliestAnchors_witness :
    Reported (searchParsed false [0x40, 0x44, 0x48]
        [⟨0, 48, 48⟩, ⟨48, 52, 48⟩, ⟨96, 56, 48⟩] (2 : Nat)).lines 0 ↔
      (earliestAnchors [0x40, 0x44, 0x48] 0 2
        (rawSums [0x40, 0x44, 0x48] 0 [⟨0, 48, 48⟩, ⟨48, 52, 48⟩, ⟨96, 56, 48⟩]) 0).isSome = true :=
  searchParsed_iff_earliestAnchors false [0x40, 0x44, 0x48]
    [⟨0, 48, 48⟩, ⟨48, 52, 48⟩, ⟨96, 56, 48⟩] 2 0 (by decide) (by decide) (by decide)
    (by decide) (by decide) (fun i hi => by
      have hi3 : i < 3 := hi
      interval_cases i <;> decide)

/-- C3 as amended, witness: the file `[0x40, 0x44, 0x48]`, the deltas `[0, 4, 8]`,
the gap 2 and the positions 0, 1, 2. -/
theorem searchParsed_complete_first_occurrences_witness :
    Reported (searchParsed false [0x40, 0x44, 0x48]
        [⟨0, 48, 48⟩, ⟨48, 52, 48⟩, ⟨96, 56, 48⟩] (2 : Nat)).lines 0 :=
  searchParsed_complete_first_occurrences false [0x40, 0x44, 0x48]
    [⟨0, 48, 48⟩, ⟨48, 52, 48⟩, ⟨96, 56, 48⟩] 2 0 (by decide) (by decide) (by decide)
    (by decide) (fun i => i) rfl (fun i _ => by dsimp only; omega)
    (fun i hi => by
      have hi3 : i < 3 := hi
      interval_cases i <;> exact ⟨by decide, by decide⟩)
    (fun i _ pos h1 h2 => by dsimp only at h1 h2; omega)

/-- C5, witness: in the file `[0x40, 0x44, 0x48]` the deltas `[0, 4, 8]` (the
melody `ceg+`) with the gap 2 report offset 0 with the bytes `0x40, 0x44, 0x48`. -/
theorem searchParsed_exact_occurrence_witness :
    Reported (searchParsed false [0x40, 0x44, 0x48]
        [⟨0, 48, 48⟩, ⟨48, 52, 48⟩, ⟨96, 56, 48⟩] (2 : Nat)).lines 0 ∧
    Line.full 0 0x40 [0x44, 0x48] ∈
      (searchParsed false [0x40, 0x44, 0x48]
        [⟨0, 48, 48⟩, ⟨48, 52, 48⟩, ⟨96, 56, 48⟩] (2 : Nat)).lines ∧
    Line.quiet 0 ∈
      (searchParsed true [0x40, 0x44, 0x48]
        [⟨0, 48, 48⟩, ⟨48, 52, 48⟩, ⟨96, 56, 48⟩] (2 : Nat)).lines :=
  searchParsed_exact_occurrence false [0x40, 0x44, 0x48]
    [⟨0, 48, 48⟩, ⟨48, 52, 48⟩, ⟨96, 56, 48⟩] 2 0 (by decide) (by decide) (by decide)
    (by decide) (by decide) (fun i hi => by
      have hi3 : i < 3 := hi
      interval_cases i <;> decide)

/-- C6, witness: the gaps 0 and 17 are refused. -/
theorem searchNotes_gap_out_of_range_witness :
    searchNotes (fun _ => (0, false)) false [0x40, 0x44, 0x48] "ceg+".toList 0 =
        some (.done false []) ∧
      searchNotes (fun _ => (0, false)) false [0x40, 0x44, 0x48] "ceg+".toList 17 =
        some (.done false []) :=
  ⟨searchNotes_gap_out_of_range _ _ _ _ 0 (Or.inl (by decide)),
    searchNotes_gap_out_of_range _ _ _ _ 17 (Or.inr (by decide))⟩

/-! ## Claims about single note tokens -/

/-- C8. Both `+` and `-` raise the pitch: a note letter `x` followed by a run `m`
of `k` characters `+` or `-` parses to one note of pitch `classOffset x + 48 + k`;
when a second note letter `y` follows the run, it is read unchanged, at pitch
`classOffset y + 48`. -/
theorem parseMML_modifiers (strtod : List Char → Nat × Bool) (maxNotes : Nat) (x y : Char)
    (m : List Char) (hx : x ∈ noteLetters) (hy : y ∈ noteLetters)
    (hm : ∀ c ∈ m, c = '+' ∨ c = '-') (hcap : 1 ≤ maxNotes) :
    parseMML strtod maxNotes (x :: m) =
      some (.ok [⟨0, classOffset x + 48 + m.length, 48⟩]) ∧
    (2 ≤ maxNotes →
      parseMML strtod maxNotes (x :: (m ++ [y])) =
        some (.ok [⟨0, classOffset x + 48 + m.length, 48⟩, ⟨48, classOffset y + 48, 48⟩])) := by
  have hwrap : ∀ z : Char, toInt32 (classOffset z + 12 * 4) = classOffset z + 12 * 4 := by
    intro z
    have hr := classOffset_range z
    exact toInt32_of_range _ (by unfold INT_MIN; omega) (by unfold INT_MAX; omega)
  constructor
  · have := parseLoop_last_note strtod maxNotes m.length (initialState (x :: m)) x m [] 0 4
      (by simp [initialState]) hx hm (Or.inl ⟨rfl, rfl⟩) (by decide) (Or.inl (by omega))
      (by simpa [initialState] using hcap)
    simp only [initialState, hwrap] at this
    simpa [parseMML, initialState, dottedDuration, add_comm, add_left_comm] using this
  · intro hcap2
    have hytl : TokenEnd [y] := by
      intro c hc
      simp only [List.head?_cons, Option.mem_def, Option.some.injEq] at hc
      subst hc
      simp only [noteLetters, List.mem_cons, List.mem_singleton, List.not_mem_nil, or_false] at hy
      rcases hy with h | h | h | h | h | h | h | h | h | h | h | h | h | h <;> subst h <;> decide
    have hbody := noteBody_run maxNotes (initialState (x :: (m ++ [y]))) x m [] [y] 0 4 hx hm
      (Or.inl ⟨rfl, rfl⟩) (by decide) (Or.inl (by omega)) hytl (by simp [initialState]; omega)
    rw [← loopBody_noteLetter strtod maxNotes _ x _ hx] at hbody
    simp only [List.replicate_zero, List.nil_append] at hbody
    unfold parseMML
    rw [parseLoop_next strtod maxNotes _ _ _ x (m ++ [y]) rfl (noteLetter_ne_nul x hx) hbody]
    have hlen : (x :: (m ++ [y])).length = m.length + 2 := by simp
    rw [hlen]
    have := parseLoop_last_note strtod maxNotes m.length
      { rest := [y], time := (initialState (x :: (m ++ [y]))).time + dottedDuration (48 * 4 / 4) 0,
        octave := (initialState (x :: (m ++ [y]))).octave,
        defaultLength := (initialState (x :: (m ++ [y]))).defaultLength,
        notes := (initialState (x :: (m ++ [y]))).notes ++
          [⟨(initialState (x :: (m ++ [y]))).time,
            toInt32 (classOffset x + 12 * (initialState (x :: (m ++ [y]))).octave) + m.length,
            dottedDuration (48 * 4 / 4) 0⟩] }
      y [] [] 0 4 (by simp) hy (fun c hc => absurd hc (by simp)) (Or.inl ⟨rfl, rfl⟩)
      (by decide) (Or.inl (by omega)) (by simp [initialState]; omega)
    rw [this]
    simp only [initialState, hwrap]
    simp [dottedDuration, add_comm, add_left_comm]

/-- C8, witness: `parse("c+d")` has the pitches 49 and 50, the deltas `[0, 1]`
after normalisation, and `c-` has the pitch of `c+`. -/
theorem parseMML_modifiers_witness :
    parseMML (fun _ => (0, false)) 512 "c+d".toList =
        some (.ok [⟨0, 49, 48⟩, ⟨48, 50, 48⟩]) ∧
      (normalize [⟨0, 49, 48⟩, ⟨48, 50, 48⟩]).map (fun n => n.key) = [0, 1] ∧
      parseMML (fun _ => (0, false)) 512 "c-".toList = some (.ok [⟨0, 49, 48⟩]) ∧
      parseMML (fun _ => (0, false)) 512 "c+".toList = some (.ok [⟨0, 49, 48⟩]) :=
  ⟨(parseMML_modifiers (fun _ => (0, false)) 512 'c' 'd' ['+'] (by decide) (by decide)
      (by decide) (by decide)).2 (by decide),
    by decide,
    (parseMML_modifiers (fun _ => (0, false)) 512 'c' 'd' ['-'] (by decide) (by decide)
      (by decide) (by decide)).1,
    (parseMML_modifiers (fun _ => (0, false)) 512 'c' 'd' ['+'] (by decide) (by decide)
      (by decide) (by decide)).1⟩

/-- C9, counterexample. The note `c` with 32 dots has the duration 142 and not
the 94 of the formula: the 32nd dot shifts by `32 % 32 = 0` places and adds the
whole base 48. The note `c4294967297` has the duration 192 and not
`floor(192 / 4294967297) = 0`: the length is held in an `int` and becomes 1.
The note `c4294967296` has the length 0 in an `int`, and the division fails. -/
theorem parseMML_dotted_duration_overflow :
    parseMML (fun _ => (0, false)) 512 ('c' :: List.replicate 32 '.') =
      some (.ok [⟨0, 48, 142⟩]) ∧
    dottedDuration (48 * 4 / 4) 32 = 94 ∧
    parseMML (fun _ => (0, false)) 512 "c4294967297".toList = some (.ok [⟨0, 48, 192⟩]) ∧
    'c' :: (decimal 4294967297 ++ List.replicate 0 '.') = "c4294967297".toList ∧
    dottedDuration (48 * 4 / ((4294967297 : Nat) : Int)) 0 = 0 ∧
    parseMML (fun _ => (0, false)) 512 "c4294967296".toList =
      some (.fault .divisionByZero) := by
  refine ⟨?_, ?_, ?_, ?_, ?_, ?_⟩ <;> decide

/-- C9, amended. A note letter `x` with the explicit length `L ≥ 1` and `k` dots
parses to one note of duration `base + sum over j = 1..k of floor(base / 2^j)`
with `base = floor(48 * 4 / L)`, when `L` is at most `INT_MAX` (or is still above
192 once held in an `int`) and there are at most 31 dots (or the base is 0, that
is `L > 192`); without an explicit length, `L` is the default length of the state
the note is read in, which is 4 at the start. -/
theorem parseMML_dotted_duration (strtod : List Char → Nat × Bool) (maxNotes : Nat) (x : Char)
    (L k : Nat) (hx : x ∈ noteLetters) (hL : 1 ≤ L) (hcap : 1 ≤ maxNotes)
    (hk : k ≤ 31 ∨ 48 * 4 < L) :
    ((L : Int) ≤ INT_MAX ∨ 48 * 4 < toInt32 (clampLong (L : Int)) →
      parseMML strtod maxNotes (x :: (decimal L ++ List.replicate k '.')) =
        some (.ok [⟨0, classOffset x + 48, dottedDuration (48 * 4 / (L : Int)) k⟩])) ∧
    (k ≤ 31 →
      parseMML strtod maxNotes (x :: List.replicate k '.') =
        some (.ok [⟨0, classOffset x + 48, dottedDuration (48 * 4 / 4) k⟩])) ∧
    ∀ st : ParseState, st.rest = x :: List.replicate k '.' → st.defaultLength = (L : Int) →
      st.notes.length < maxNotes →
      parseLoop strtod maxNotes (k + 2) st =
        some (.ok (st.notes ++
          [⟨st.time, toInt32 (classOffset x + 12 * st.octave),
            dottedDuration (48 * 4 / (L : Int)) k⟩])) := by
  have hwrap : toInt32 (classOffset x + 12 * 4) = classOffset x + 12 * 4 := by
    have hr := classOffset_range x
    exact toInt32_of_range _ (by unfold INT_MIN; omega) (by unfold INT_MAX; omega)
  have hLpos : (0 : Int) < (L : Int) := by exact_mod_cast hL
  have hbase : k ≤ 31 ∨ 48 * 4 / (L : Int) = 0 := by
    rcases hk with hk | hk
    · exact Or.inl hk
    · exact Or.inr (Int.ediv_eq_zero_of_lt (by decide) (by exact_mod_cast hk))
  refine ⟨?_, ?_, ?_⟩
  · intro hfit
    by_cases hmax : (L : Int) ≤ INT_MAX
    · have hval : toInt32 (clampLong (L : Int)) = (L : Int) := by
        rw [clampLong_of_range _ (by unfold LONG_MIN; omega)
          (by unfold INT_MAX at hmax; unfold LONG_MAX; omega)]
        exact toInt32_of_range _ (by unfold INT_MIN; omega) hmax
      have := parseLoop_last_note strtod maxNotes ((decimal L).length + k)
        (initialState (x :: (decimal L ++ List.replicate k '.'))) x [] (decimal L) k L
        (by simp [initialState]) hx (fun c hc => absurd hc (by simp))
        (Or.inr ⟨L, rfl, hval.symm⟩) hLpos hbase (by simpa [initialState] using hcap)
      simp only [initialState, hwrap] at this
      simpa [parseMML, initialState, add_comm, add_left_comm, add_assoc] using this
    · have hbig : 48 * 4 < toInt32 (clampLong (L : Int)) := by
        rcases hfit with h | h
        · exact absurd h hmax
        · exact h
      have hz1 : 48 * 4 / toInt32 (clampLong (L : Int)) = 0 :=
        Int.ediv_eq_zero_of_lt (by decide) hbig
      have hz2 : 48 * 4 / (L : Int) = 0 :=
        Int.ediv_eq_zero_of_lt (by decide) (by unfold INT_MAX at hmax; omega)
      have := parseLoop_last_note strtod maxNotes ((decimal L).length + k)
        (initialState (x :: (decimal L ++ List.replicate k '.'))) x [] (decimal L) k
        (toInt32 (clampLong (L : Int)))
        (by simp [initialState]) hx (fun c hc => absurd hc (by simp))
        (Or.inr ⟨L, rfl, rfl⟩) (by omega) (Or.inr hz1) (by simpa [initialState] using hcap)
      rw [hz1] at this
      rw [hz2]
      simp only [initialState, hwrap] at this
      simpa [parseMML, initialState, add_comm, add_left_comm, add_assoc] using this
  · intro hk31
    have := parseLoop_last_note strtod maxNotes k
      (initialState (x :: List.replicate k '.')) x [] [] k 4
      (by simp [initialState]) hx (fun c hc => absurd hc (by simp)) (Or.inl ⟨rfl, rfl⟩)
      (by decide) (Or.inl hk31) (by simpa [initialState] using hcap)
    simp only [initialState, hwrap] at this
    simpa [parseMML, initialState, add_comm, add_left_comm, add_assoc] using this
  · intro st hrest hd hroom
    have := parseLoop_last_note strtod maxNotes k st x [] [] k L
      (by simpa using hrest) hx (fun c hc => absurd hc (by simp)) (Or.inl ⟨rfl, hd.symm⟩)
      hLpos hbase hroom
    simpa using this

/-- C9 as amended, witness: `parse("c4.")` has duration `48 + 24 = 72`. -/
theorem parseMML_dotted_duration_witness :
    'c' ∈ noteLetters ∧ 1 ≤ 4 ∧ 1 ≤ 512 ∧ (1 ≤ 31 ∨ 48 * 4 < 4) ∧
      parseMML (fun _ => (0, false)) 512 "c4.".toList = some (.ok [⟨0, 48, 72⟩]) :=
  ⟨by decide, by decide, by decide, by decide,
    (parseMML_dotted_duration (fun _ => (0, false)) 512 'c' 4 1 (by decide) (by decide)
      (by decide) (by decide)).1 (by decide)⟩

/-! ## Claim about rests and start times -/

/-- C10. When an MML string parses successfully, the notes emitted are exactly
its pitched-note tokens in order of appearance, and the start time of each is
the sum of the durations of all pitched-note and rest tokens before it: a rest
emits nothing and advances the time. -/
theorem parseMML_notes_of_tokens (strtod : List Char → Nat × Bool) (maxNotes : Nat)
    (mml : List Char) (notes : List SeqNote)
    (h : parseMML strtod maxNotes mml = some (.ok notes)) :
    notes = notesOfTokens (tokens strtod (mml.length + 1) 4 4 mml) := by
  have := parseLoop_tokens strtod maxNotes (mml.length + 1) (initialState mml) notes h
  rw [this, ← notesFrom_zero]
  simp [initialState]

/-- C10, witness: `parse("cr8d")` yields two notes with the start times 0 and
`48 + 24 = 72`, the notes of the tokens `c`, `r8`, `d`. -/
theorem parseMML_notes_of_tokens_witness :
    parseMML (fun _ => (0, false)) 512 "cr8d".toList =
        some (.ok [⟨0, 48, 48⟩, ⟨72, 50, 48⟩]) ∧
      tokens (fun _ => (0, false)) 5 4 4 "cr8d".toList =
        [.pitched 48 48, .rest 24, .pitched 50 48] ∧
      [⟨0, 48, 48⟩, ⟨72, 50, 48⟩] =
        notesOfTokens (tokens (fun _ => (0, false)) ("cr8d".toList.length + 1) 4 4 "cr8d".toList) :=
  ⟨by decide, by decide,
    parseMML_notes_of_tokens (fun _ => (0, false)) 512 "cr8d".toList _ (by decide)⟩

/-! ## Claims about errors, white space and the capacity -/

/-- The tie branch never goes on: it divides by zero when the length of the tie
resolves to 0, refuses a negative length, and refuses the tie otherwise. -/
theorem loopBody_tie (strtod : List Char → Nat × Bool) (maxNotes : Nat) (st : ParseState)
    (cs : List Char) :
    loopBody strtod maxNotes st '^' cs =
      .stop (if lengthAt st.octave st.defaultLength '^' cs = 0 then .fault .divisionByZero
        else if lengthAt st.octave st.defaultLength '^' cs ≤ 0 then .error .lengthNotPositive
        else .error .tieNotSupported) := by
  have h0 : loopBody strtod maxNotes st '^' cs = noteBody maxNotes st '^' cs := by
    simp [loopBody, tolower, isspace]
  have h1 : (decide ('a' ≤ '^') && decide ('^' ≤ 'g')) = false := by decide
  rw [h0]
  unfold noteBody lengthAt
  simp only [h1, Bool.false_eq_true, if_false, if_true, scanModifiers_snd]
  split_ifs <;> rfl

/-- C11, the code at a failing input. The tie of `c^` is refused with the message
"Tie is not supported", but in `c^0` the length of the tie resolves to 0 and the
division `(timebase * 4) / length` comes before both checks: the parse does not
return `false`, it divides by zero. -/
theorem parseMML_tie_zero_length :
    parseMML (fun _ => (0, false)) 512 "c^".toList = some (.error .tieNotSupported) ∧
    parseMML (fun _ => (0, false)) 512 "c".toList = some (.ok [⟨0, 48, 48⟩]) ∧
    parseMML (fun _ => (0, false)) 512 "c^0".toList = some (.fault .divisionByZero) := by
  refine ⟨?_, ?_, ?_⟩ <;> decide

/-- A note, rest or tie whose length resolves to 0 ends in the division by zero. -/
theorem noteBody_zero_length (maxNotes : Nat) (st : ParseState) (c : Char) (cs : List Char)
    (h : lengthAt st.octave st.defaultLength c cs = 0) :
    noteBody maxNotes st c cs = .stop (.fault .divisionByZero) := by
  unfold noteBody
  unfold lengthAt at h
  simp only [scanModifiers_snd] at h ⊢
  rw [if_pos h]

/-- C12, the code at a failing input. In `c0` the length resolves to 0 and
`(timebase * 4) / length` is evaluated before the test `length <= 0`: the parse
divides by zero instead of returning `false`. A negative length (`c -8`) does
reach the test and is refused. -/
theorem parseMML_zero_length :
    parseMML (fun _ => (0, false)) 512 "c0".toList = some (.fault .divisionByZero) ∧
    parseMML (fun _ => (0, false)) 512 "c -8".toList = some (.error .lengthNotPositive) := by
  constructor <;> decide

/-- After the note of `c d` the next character is white space, and the run is
never over, whatever the fuel. -/
theorem parseLoop_space_after_note (fuel : Nat) :
    parseLoop (fun _ => (0, false)) 512 fuel (initialState "c d".toList) = none := by
  cases fuel with
  | zero => rfl
  | succ fuel =>
    have hbody : loopBody (fun _ => (0, false)) 512 (initialState "c d".toList) 'c' " d".toList =
        .next { rest := " d".toList, time := 48, octave := 4, defaultLength := 4,
                notes := [⟨0, 48, 48⟩] } := by decide
    rw [parseLoop_next _ 512 fuel _ _ 'c' " d".toList rfl (by decide) hbody]
    exact parseLoop_space _ 512 _ ' ' "d".toList rfl (by decide) fuel

/-- C13, the code at a failing input. `cd` parses to two notes of pitches 48 and
50, but on `c d` the loop never returns: the white space branch does not advance
`i`, so no amount of fuel ends the run. -/
theorem parseMML_space_hangs :
    parseMML (fun _ => (0, false)) 512 "cd".toList =
        some (.ok [⟨0, 48, 48⟩, ⟨48, 50, 48⟩]) ∧
    ∀ fuel, parseLoop (fun _ => (0, false)) 512 fuel (initialState "c d".toList) = none :=
  ⟨by decide, parseLoop_space_after_note⟩

/-- C19, the code at a failing input. On the one-character string of a space the
loop of `parseMML` does not return with any fuel: the pass through the white
space branch leaves `i` where it was. -/
theorem parseMML_space_never_returns :
    ∀ fuel, parseLoop (fun _ => (0, false)) 512 fuel (initialState " ".toList) = none :=
  parseLoop_space _ 512 _ ' ' [] rfl (by decide)

/-- C17, the code at a failing input. For the file `[7, 7]` and the melody `co25e`
the line printed for offset 0 carries the value `7 + 256 = 263` for the second
note, which is no byte. -/
theorem searchNotes_reports_value_above_byte :
    searchNotes (fun _ => (0, false)) false [7, 7] "co25e".toList 1 =
        some (.done true [.full 0 7 [263]]) ∧
    ¬ ((263 : Int) ≤ 255) := by
  constructor <;> decide

/-! ## The capacity of the notes array -/

theorem tokenEnd_replicate_c (k : Nat) : TokenEnd (List.replicate k 'c') := by
  intro c hc
  cases k with
  | zero => simp at hc
  | succ k =>
    simp only [List.replicate_succ, List.head?_cons, Option.mem_def, Option.some.injEq] at hc
    subst hc
    decide

theorem noteBody_overrun (maxNotes : Nat) (st : ParseState) (hd : 0 < st.defaultLength)
    (hfull : ¬ st.notes.length < maxNotes) :
    noteBody maxNotes st 'c' [] = .stop (.fault .notesOverrun) := by
  have h1 : (decide ('a' ≤ 'c') && decide ('c' ≤ 'g')) = true := by decide
  have h2 : strtol [] = (0, 0) := by decide
  unfold noteBody
  simp only [h1, if_true, scanModifiers, h2, if_neg (ne_of_gt hd), if_neg (not_le.mpr hd),
    if_neg hfull]

/-- A melody of `k + 1` notes `c` read into an array with room for `k` more notes
runs past the array. -/
theorem parseLoop_overrun (strtod : List Char → Nat × Bool) (maxNotes fuel : Nat) :
    ∀ (k : Nat) (st : ParseState), st.rest = List.replicate (k + 1) 'c' →
      0 < st.defaultLength → st.notes.length + k = maxNotes →
      parseLoop strtod maxNotes (fuel + k + 1) st = some (.fault .notesOverrun) := by
  intro k
  induction k with
  | zero =>
    intro st hrest hd hlen
    have hbody : loopBody strtod maxNotes st 'c' [] = .stop (.fault .notesOverrun) := by
      rw [loopBody_noteLetter strtod maxNotes st 'c' [] (by decide)]
      exact noteBody_overrun maxNotes st hd (by omega)
    exact parseLoop_stop strtod maxNotes fuel st _ 'c' [] (by simpa using hrest) (by decide) hbody
  | succ k ih =>
    intro st hrest hd hlen
    have hbody := noteBody_run maxNotes st 'c' [] [] (List.replicate (k + 1) 'c') 0
      st.defaultLength (by decide) (fun c hc => absurd hc (by simp)) (Or.inl ⟨rfl, rfl⟩) hd
      (Or.inl (by omega)) (tokenEnd_replicate_c (k + 1)) (by omega)
    rw [← loopBody_noteLetter strtod maxNotes st 'c' _ (by decide)] at hbody
    simp only [List.nil_append, List.replicate_zero] at hbody
    have hrest1 : st.rest = 'c' :: List.replicate (k + 1) 'c' := by
      rw [hrest, List.replicate_succ]
    have hfuel : fuel + (k + 1) + 1 = (fuel + k + 1) + 1 := by omega
    rw [hfuel, parseLoop_next strtod maxNotes (fuel + k + 1) st _ 'c' _ hrest1 (by decide) hbody]
    exact ih _ rfl hd (by simp; omega)

/-- C14, the code at failing inputs. Whatever the capacity `maxNotes`, the melody
of `maxNotes + 1` notes `c` is not refused: `parseMML` never compares `noteCount`
with `maxNotes`, and the last note is written past the array. -/
theorem parseMML_capacity_not_checked (strtod : List Char → Nat × Bool) (maxNotes : Nat) :
    parseMML strtod maxNotes (List.replicate (maxNotes + 1) 'c') =
      some (.fault .notesOverrun) := by
  unfold parseMML
  have := parseLoop_overrun strtod maxNotes 1 maxNotes
    (initialState (List.replicate (maxNotes + 1) 'c')) rfl (by simp [initialState])
    (by simp [initialState])
  rw [List.length_replicate]
  rw [show maxNotes + 1 + 1 = 1 + maxNotes + 1 by omega]
  exact this

/-! ## Start time of the first note -/

theorem notesFrom_head (toks : List Token) :
    ∀ (time : Int) (n : SeqNote) (ns : List SeqNote), notesFrom time toks = n :: ns →
      ∃ j, toks[j]? = some (.pitched n.key n.duration) ∧
        (∀ i, i < j → ∃ d, toks[i]? = some (.rest d)) ∧
        n.time = time + durationBefore toks j := by
  induction toks with
  | nil => intro time n ns h; simp [notesFrom] at h
  | cons tok toks ih =>
    intro time n ns h
    cases tok with
    | pitched key d =>
      rw [notesFrom] at h
      have hn : n = ⟨time, key, d⟩ := (List.cons.inj h).1.symm
      subst hn
      exact ⟨0, by simp, fun i hi => absurd hi (by omega), by simp [durationBefore]⟩
    | rest d =>
      rw [notesFrom] at h
      obtain ⟨j, hj, hbefore, htime⟩ := ih (time + d) n ns h
      refine ⟨j + 1, by simpa using hj, fun i hi => ?_, ?_⟩
      · cases i with
        | zero => exact ⟨d, by simp⟩
        | succ i =>
          obtain ⟨d1, hd1⟩ := hbefore i (by omega)
          exact ⟨d1, by simpa using hd1⟩
      · rw [htime]
        simp only [durationBefore, List.take_succ_cons, List.map_cons, List.sum_cons,
          Token.duration]
        ring

/-- C15, counterexample. The melody `rc` parses to one note, and that first note
starts at 48, after the rest. -/
theorem parseMML_first_note_after_rest :
    parseMML (fun _ => (0, false)) 512 "rc".toList = some (.ok [⟨48, 48, 48⟩]) ∧
    ¬ ((⟨48, 48, 48⟩ : SeqNote).time = 0) := by
  constructor <;> decide

/-- C15, amended. When an MML string parses successfully to at least one note,
the first note is the first pitched token of the text, only rests come before
it, and its start time is the sum of the durations of these rests; so it is 0
when the first token that takes time is a pitched note. -/
theorem parseMML_first_note_time (strtod : List Char → Nat × Bool) (maxNotes : Nat)
    (mml : List Char) (n : SeqNote) (ns : List SeqNote)
    (h : parseMML strtod maxNotes mml = some (.ok (n :: ns))) :
    (∃ j, (tokens strtod (mml.length + 1) 4 4 mml)[j]? = some (.pitched n.key n.duration) ∧
      (∀ i, i < j → ∃ d, (tokens strtod (mml.length + 1) 4 4 mml)[i]? = some (.rest d)) ∧
      n.time = durationBefore (tokens strtod (mml.length + 1) 4 4 mml) j) ∧
    (∀ key d, (tokens strtod (mml.length + 1) 4 4 mml)[0]? = some (.pitched key d) →
      n.time = 0) := by
  have hnotes := parseLoop_tokens strtod maxNotes (mml.length + 1) (initialState mml) _ h
  simp only [initialState, List.nil_append] at hnotes
  obtain ⟨j, hj, hbefore, htime⟩ := notesFrom_head _ 0 n ns hnotes.symm
  rw [zero_add] at htime
  refine ⟨⟨j, hj, hbefore, htime⟩, fun key d h0 => ?_⟩
  cases j with
  | zero => rw [htime]; simp [durationBefore]
  | succ j =>
    obtain ⟨d1, hd1⟩ := hbefore 0 (by omega)
    rw [h0] at hd1
    exact absurd hd1 (by simp)

/-- C15 as amended, witness: in `r8cd` the first note starts at 24, the duration
of the rest before it. -/
theorem parseMML_first_note_time_witness :
    (∃ j, (tokens (fun _ => (0, false)) ("r8cd".toList.length + 1) 4 4 "r8cd".toList)[j]? =
        some (.pitched 48 48) ∧
      (∀ i, i < j → ∃ d,
        (tokens (fun _ => (0, false)) ("r8cd".toList.length + 1) 4 4 "r8cd".toList)[i]? =
          some (.rest d)) ∧
      (24 : Int) =
        durationBefore (tokens (fun _ => (0, false)) ("r8cd".toList.length + 1) 4 4 "r8cd".toList) j) :=
  (parseMML_first_note_time (fun _ => (0, false)) 512 "r8cd".toList ⟨24, 48, 48⟩ [⟨72, 50, 48⟩]
    (by decide)).1

/-! ## Durations -/

theorem tokenAt_duration (octave defaultLength : Int) (c : Char) (cs : List Char)
    (hL : 0 < lengthAt octave defaultLength c cs) :
    0 ≤ (tokenAt octave defaultLength c cs).1.duration ∧
      (0 < (tokenAt octave defaultLength c cs).1.duration ↔
        lengthAt octave defaultLength c cs ≤ 48 * 4) := by
  have hdur : ∀ (k d : Int), (if c = 'r' then Token.rest d else Token.pitched k d).duration = d := by
    intro k d; split_ifs <;> rfl
  have hform : (tokenAt octave defaultLength c cs).1.duration =
      (scanDots (Int.tdiv (timebase * 4) (lengthAt octave defaultLength c cs))
        (Int.tdiv (timebase * 4) (lengthAt octave defaultLength c cs)) 0
        ((scanModifiers (toInt32 (keys.getD (c.toNat - 'a'.toNat) 0 + octave * 12)) cs).2.drop
          (strtol (scanModifiers (toInt32 (keys.getD (c.toNat - 'a'.toNat) 0 + octave * 12))
            cs).2).2)).1 := by
    unfold tokenAt lengthAt
    simp only [hdur]
  rw [hform]
  generalize lengthAt octave defaultLength c cs = L at hL ⊢
  have hbase : Int.tdiv (timebase * 4) L = 48 * 4 / L := by
    unfold timebase
    exact Int.tdiv_eq_ediv (by decide) (le_of_lt hL)
  rw [hbase]
  have hnn : (0 : Int) ≤ 48 * 4 / L := Int.ediv_nonneg (by decide) (le_of_lt hL)
  by_cases hle : L ≤ 48 * 4
  · have hpos : (1 : Int) ≤ 48 * 4 / L := (Int.le_ediv_iff_mul_le hL).mpr (by omega)
    have := scanDots_ge (48 * 4 / L) hnn
      ((scanModifiers (toInt32 (keys.getD (c.toNat - 'a'.toNat) 0 + octave * 12)) cs).2.drop
        (strtol (scanModifiers (toInt32 (keys.getD (c.toNat - 'a'.toNat) 0 + octave * 12))
          cs).2).2)
      (48 * 4 / L) 0
    exact ⟨by omega, fun _ => hle, fun _ => by omega⟩
  · have hzero : (48 * 4 : Int) / L = 0 := Int.ediv_eq_zero_of_lt (by decide) (by omega)
    rw [hzero, scanDots_zero]
    exact ⟨le_refl _, fun h => absurd h (by decide), fun h => absurd h hle⟩


theorem noteBody_length_pos (maxNotes : Nat) (st st1 : ParseState) (c : Char) (cs : List Char)
    (h : noteBody maxNotes st c cs = .next st1) :
    0 < lengthAt st.octave st.defaultLength c cs := by
  unfold noteBody at h
  unfold lengthAt
  simp only [scanModifiers_snd] at h ⊢
  split_ifs at h ⊢ <;> cases h <;> omega

theorem pitchedLengths_succ_cons (strtod : List Char → Nat × Bool) (fuel : Nat)
    (octave defaultLength : Int) (ch : Char) (cs : List Char) :
    pitchedLengths strtod (fuel + 1) octave defaultLength (ch :: cs) =
      if isspace (tolower ch) then pitchedLengths strtod fuel octave defaultLength cs
      else if tolower ch = 't' then
        pitchedLengths strtod fuel octave defaultLength (cs.drop (strtod cs).1)
      else if tolower ch = 'o' then
        pitchedLengths strtod fuel (toInt32 (strtol cs).1) defaultLength (cs.drop (strtol cs).2)
      else if tolower ch = 'l' then
        pitchedLengths strtod fuel octave (toInt32 (strtol cs).1) (cs.drop (strtol cs).2)
      else if tolower ch = '<' then
        pitchedLengths strtod fuel (toInt32 (octave + 1)) defaultLength cs
      else if tolower ch = '>' then
        pitchedLengths strtod fuel (toInt32 (octave - 1)) defaultLength cs
      else if (decide ('a' ≤ tolower ch) && decide (tolower ch ≤ 'g')) || tolower ch = 'r' then
        (if tolower ch = 'r' then [] else [lengthAt octave defaultLength (tolower ch) cs]) ++
          pitchedLengths strtod fuel octave defaultLength
            (tokenAt octave defaultLength (tolower ch) cs).2
      else [] := by
  rw [pitchedLengths]

theorem forall₂_mem_left {α β : Type} {R : α → β → Prop} {l1 : List α} {l2 : List β}
    (h : List.Forall₂ R l1 l2) : ∀ a ∈ l1, ∃ b ∈ l2, R a b := by
  induction h with
  | nil => intro a ha; simp at ha
  | cons hab _ ih =>
    intro x hx
    rcases List.mem_cons.mp hx with rfl | hx
    · exact ⟨_, List.mem_cons_self _ _, hab⟩
    · obtain ⟨b, hb, hr⟩ := ih x hx
      exact ⟨b, List.mem_cons_of_mem _ hb, hr⟩

theorem pitchedLengths_nul (strtod : List Char → Nat × Bool) (fuel : Nat)
    (octave defaultLength : Int) (cs : List Char) :
    pitchedLengths strtod (fuel + 1) octave defaultLength ('\x00' :: cs) = [] := by
  rw [pitchedLengths_succ_cons]
  have h1 : tolower '\x00' = '\x00' := by decide
  rw [h1]
  have h2 : isspace '\x00' = false := by decide
  simp [h2]

theorem loopBody_next_lengths (strtod : List Char → Nat × Bool) (maxNotes fuel : Nat)
    (st st1 : ParseState) (ch : Char) (cs : List Char)
    (hsp : isspace (tolower ch) = false)
    (h : loopBody strtod maxNotes st ch cs = .next st1) :
    ∃ new pre, st1.notes = st.notes ++ new ∧
      pitchedLengths strtod (fuel + 1) st.octave st.defaultLength (ch :: cs) =
        pre ++ pitchedLengths strtod fuel st1.octave st1.defaultLength st1.rest ∧
      List.Forall₂ (fun (n : SeqNote) (L : Int) =>
        0 < L ∧ 0 ≤ n.duration ∧ (0 < n.duration ↔ L ≤ 48 * 4)) new pre := by
  unfold loopBody at h
  simp only [hsp, Bool.false_eq_true, if_false] at h
  rw [pitchedLengths_succ_cons]
  simp only [hsp, Bool.false_eq_true, if_false]
  split_ifs at h with h1 h2 h3 h4 h5 h6 h7 h8 h9 h10 h11
  all_goals first
    | (cases h; refine ⟨[], [], ?_, ?_, List.Forall₂.nil⟩ <;> simp [*])
    | skip
  obtain ⟨htok, hst1⟩ := noteBody_tokenAt maxNotes st st1 (tolower ch) cs h11 h
  have hpos := noteBody_length_pos maxNotes st st1 (tolower ch) cs h
  have hdur := tokenAt_duration st.octave st.defaultLength (tolower ch) cs hpos
  rw [if_pos htok]
  subst hst1
  refine ⟨notesFrom st.time [(tokenAt st.octave st.defaultLength (tolower ch) cs).1],
    if tolower ch = 'r' then [] else [lengthAt st.octave st.defaultLength (tolower ch) cs],
    rfl, by simp [*], ?_⟩
  by_cases hr : tolower ch = 'r'
  · have hrest : ∃ d, (tokenAt st.octave st.defaultLength (tolower ch) cs).1 = Token.rest d := by
      unfold tokenAt
      simp only [if_pos hr]
      exact ⟨_, rfl⟩
    obtain ⟨d, hd⟩ := hrest
    rw [hd, if_pos hr]
    simp [notesFrom]
  · have hp : ∃ k d, (tokenAt st.octave st.defaultLength (tolower ch) cs).1 =
        Token.pitched k d := by
      unfold tokenAt
      simp only [if_neg hr]
      exact ⟨_, _, rfl⟩
    obtain ⟨k, d, hd⟩ := hp
    rw [hd] at hdur ⊢
    rw [if_neg hr]
    simp only [notesFrom]
    refine List.Forall₂.cons ⟨hpos, ?_⟩ List.Forall₂.nil
    simpa [Token.duration] using hdur

/-- The notes the loop emits are, one for one and in order, the pitched tokens of
the unread text: each has a positive length denominator and a duration that is
non-negative, and positive exactly for a length of at most 192. -/
theorem parseLoop_durations (strtod : List Char → Nat × Bool) (maxNotes : Nat) (fuel : Nat) :
    ∀ (st : ParseState) (notes : List SeqNote),
      parseLoop strtod maxNotes fuel st = some (.ok notes) →
      ∃ new, notes = st.notes ++ new ∧
        List.Forall₂ (fun (n : SeqNote) (L : Int) =>
          0 < L ∧ 0 ≤ n.duration ∧ (0 < n.duration ↔ L ≤ 48 * 4)) new
          (pitchedLengths strtod fuel st.octave st.defaultLength st.rest) := by
  induction fuel with
  | zero => intro st notes h; simp [parseLoop] at h
  | succ fuel ih =>
    intro st notes h
    cases hrest : st.rest with
    | nil =>
      rw [parseLoop_nil strtod maxNotes fuel st hrest] at h
      have h1 := ParseResult.ok.inj (Option.some.inj h)
      refine ⟨[], by simp [h1], ?_⟩
      rw [pitchedLengths]
      exact List.Forall₂.nil
    | cons ch cs =>
      by_cases hch : ch = '\x00'
      · subst hch
        unfold parseLoop at h
        rw [hrest] at h
        simp only [if_true] at h
        have h1 := ParseResult.ok.inj (Option.some.inj h)
        refine ⟨[], by simp [h1], ?_⟩
        rw [pitchedLengths_nul]
        exact List.Forall₂.nil
      · cases hsp : isspace (tolower ch) with
        | true =>
          rw [parseLoop_space strtod maxNotes st ch cs hrest hsp] at h
          exact absurd h (by simp)
        | false =>
          cases hbody : loopBody strtod maxNotes st ch cs with
          | stop r =>
            rw [parseLoop_stop strtod maxNotes fuel st r ch cs hrest hch hbody] at h
            have h1 : r = .ok notes := Option.some.inj h
            rw [h1] at hbody
            exact absurd hbody (loopBody_stop_ne_ok strtod maxNotes st ch cs notes)
          | next st1 =>
            rw [parseLoop_next strtod maxNotes fuel st st1 ch cs hrest hch hbody] at h
            obtain ⟨new1, pre, hnotes, hpre, hstep⟩ :=
              loopBody_next_lengths strtod maxNotes fuel st st1 ch cs hsp hbody
            obtain ⟨new2, hnew2, hrel⟩ := ih st1 notes h
            rw [hpre]
            refine ⟨new1 ++ new2, ?_, List.rel_append hstep hrel⟩
            rw [hnew2, hnotes, List.append_assoc]

/-- C16, counterexample. The melody `c193` parses to one note of duration
`192 / 193 = 0`. -/
theorem parseMML_zero_duration :
    parseMML (fun _ => (0, false)) 512 "c193".toList = some (.ok [⟨0, 48, 0⟩]) ∧
    ¬ (0 < (⟨0, 48, 0⟩ : SeqNote).duration) := by
  constructor <;> decide

/-- C16, amended. When an MML string parses successfully, the emitted notes are,
one for one and in order, the pitched notes of the text; every emitted note has
a duration of at least 0, and a note has a duration above 0 exactly when its own
length denominator (the number written at the note as an `int` holds it, or the
default length in force at the note) is at most `4 * timebase = 192`. -/
theorem parseMML_durations (strtod : List Char → Nat × Bool) (maxNotes : Nat)
    (mml : List Char) (notes : List SeqNote)
    (h : parseMML strtod maxNotes mml = some (.ok notes)) :
    (∀ n ∈ notes, 0 ≤ n.duration) ∧
    List.Forall₂ (fun (n : SeqNote) (L : Int) => 0 < L ∧ (0 < n.duration ↔ L ≤ 48 * 4))
      notes (pitchedLengths strtod (mml.length + 1) 4 4 mml) := by
  obtain ⟨new, hnew, key⟩ :=
    parseLoop_durations strtod maxNotes (mml.length + 1) (initialState mml) notes h
  simp only [initialState, List.nil_append] at hnew key
  subst hnew
  constructor
  · intro n hn
    obtain ⟨L, _, _, h0, _⟩ := forall₂_mem_left key n hn
    exact h0
  · exact key.imp (fun _ _ hx => ⟨hx.1, hx.2.2⟩)

/-- C16 as amended, witness: the notes of `cd193e8.` have the lengths 4, 193 and 8
and the durations 48, 0 and 36; the note `c` in front of `d193` has a duration
above 0. -/
theorem parseMML_durations_witness :
    pitchedLengths (fun _ => (0, false)) ("cd193e8.".toList.length + 1) 4 4 "cd193e8.".toList =
        [4, 193, 8] ∧
    (∀ n ∈ [(⟨0, 48, 48⟩ : SeqNote), ⟨48, 50, 0⟩, ⟨48, 52, 36⟩], 0 ≤ n.duration) ∧
    List.Forall₂ (fun (n : SeqNote) (L : Int) => 0 < L ∧ (0 < n.duration ↔ L ≤ 48 * 4))
      [(⟨0, 48, 48⟩ : SeqNote), ⟨48, 50, 0⟩, ⟨48, 52, 36⟩]
      (pitchedLengths (fun _ => (0, false)) ("cd193e8.".toList.length + 1) 4 4
        "cd193e8.".toList) :=
  ⟨by decide,
    parseMML_durations (fun _ => (0, false)) 512 "cd193e8.".toList
      [⟨0, 48, 48⟩, ⟨48, 50, 0⟩, ⟨48, 52, 36⟩] (by decide)⟩

/-! ## The search and the pitch deltas -/

theorem leastOffset_mono (inFile : List byte) (s : Nat) (t : Int) (lo g g1 a : Nat)
    (hgg : g ≤ g1) (h : leastOffset inFile s t lo g = some a) :
    leastOffset inFile s t lo g1 = some a := by
  obtain ⟨h1, h2, h3, h4⟩ := leastOffset_some inFile s t lo g a h
  exact leastOffset_of_first inFile s t lo g1 a h1 (by omega) h3 h4

theorem earliestAnchors_mono (inFile : List byte) (s g g1 : Nat) (hgg : g ≤ g1) :
    ∀ (ts : List Int) (prev : Nat) (as : List Nat),
      earliestAnchors inFile s g ts prev = some as →
      earliestAnchors inFile s g1 ts prev = some as := by
  intro ts
  induction ts with
  | nil => intro prev as h; simpa [earliestAnchors] using h
  | cons t ts ih =>
    intro prev as h
    simp only [earliestAnchors] at h ⊢
    cases hl : leastOffset inFile s t (prev + 1) g with
    | none => rw [hl] at h; exact absurd h (by simp)
    | some a =>
      rw [hl] at h
      rw [leastOffset_mono inFile s t (prev + 1) g g1 a hgg hl]
      simp only [Option.map_eq_some'] at h ⊢
      obtain ⟨as1, has1, hcons⟩ := h
      exact ⟨as1, ih a as1 has1, hcons⟩

theorem noteLoop_minOffsets (inFile : List byte) (offset : Nat) (fb : byte) (g : Nat)
    (hg : g ≤ 16) :
    ∀ (ks : List Int) (idx prev : Nat) (as : List Nat),
      prev + 16 * ks.length < 2147483647 →
      earliestAnchors inFile offset g
        (ks.map (fun k => ((fb.val : Int) + k) % 256)) prev = some as →
      (noteLoop inFile offset fb g ks idx prev).2.map (fun w => w.minOffset) =
        List.map (fun a : Nat => (a : Int)) as := by
  intro ks
  induction ks with
  | nil =>
    intro idx prev as _ h
    simp only [List.map_nil, earliestAnchors, Option.some.injEq] at h
    subst h
    simp [noteLoop]
  | cons key rest ih =>
    intro idx prev as hb h
    simp only [List.length_cons] at hb
    have hcount : ((prev : Int) + (g : Int) - ((prev : Int) + 1) + 1).toNat = g := by omega
    have hstart : ((prev : Int) + 1) = ((prev + 1 : Nat) : Int) := by push_cast; rfl
    have hfresh := scanWindow_fresh inFile offset (((fb.val : Int) + key) % 256) g (prev + 1)
      (by unfold INT_MAX; push_cast; omega)
    rw [← hstart] at hfresh
    simp only [List.map_cons, earliestAnchors] at h
    cases hl : leastOffset inFile offset (((fb.val : Int) + key) % 256) (prev + 1) g with
    | none => rw [hl] at h; exact absurd h (by simp)
    | some a =>
      rw [hl] at h hfresh
      simp only [Option.map_eq_some'] at h
      obtain ⟨as1, has1, hcons⟩ := h
      subst hcons
      have hf := hfresh.1
      have hm := hfresh.2 a rfl
      have hbound := leastOffset_some inFile offset _ (prev + 1) g a hl
      simp only [Option.isSome_some] at hf
      unfold noteLoop
      simp only [hcount, hf, hm, Bool.not_true, Bool.false_eq_true, if_false, List.map_cons]
      rw [ih (idx + 1) a as1 (by omega) has1]

theorem offsetBody_isSome_iff (glQuiet : Bool) (inFile : List byte) (notes : List SeqNote)
    (g : Int) (s : Nat) :
    (offsetBody glQuiet inFile notes g s).isSome = true ↔
      (noteLoop inFile s ((fgetc inFile (s : Int)).getD 255) g
        (notes.tail.map (fun n => n.key)) 1 0).1 = notes.length := by
  unfold offsetBody
  simp only
  by_cases h : (noteLoop inFile s ((fgetc inFile (s : Int)).getD 255) g
      (notes.tail.map (fun n => n.key)) 1 0).1 = notes.length
  · rw [if_pos h]
    exact ⟨fun _ => h, fun _ => rfl⟩
  · rw [if_neg h]
    exact ⟨fun hx => absurd hx (by simp), fun hx => absurd hx h⟩

/-- C20. Widening the gap never loses a match: for `1 ≤ g ≤ g' ≤ 16` every offset
reported with `maxNoteGap = g` is reported with `maxNoteGap = g'`, and the note
loop leaves the same earliest positions in `minOffsets` for every note. -/
theorem searchParsed_gap_monotone (glQuiet : Bool) (inFile : List byte)
    (notes : List SeqNote) (g g1 s : Nat) (hcap : notes.length ≤ 512)
    (_hg1 : 1 ≤ g) (hgg : g ≤ g1) (hg16 : g1 ≤ 16)
    (hrep : Reported (searchParsed glQuiet inFile notes g).lines s) :
    Reported (searchParsed glQuiet inFile notes g1).lines s ∧
      minOffsetsAt inFile notes g s = minOffsetsAt inFile notes g1 s := by
  unfold searchParsed at hrep ⊢
  rw [reported_iff] at hrep ⊢
  obtain ⟨hs, hsome⟩ := hrep
  rw [offsetBody_isSome_iff] at hsome ⊢
  cases hnotes : notes with
  | nil =>
    rw [hnotes] at hsome
    simp [normalize, noteLoop] at hsome
  | cons n0 rest =>
    have hlen : (normalize notes).length =
        1 + ((normalize notes).tail.map (fun n => n.key)).length := by
      rw [hnotes]; simp [normalize]; omega
    have hbound : 0 + 16 * ((normalize notes).tail.map (fun n => n.key)).length < 2147483647 := by
      have := normalize_length notes
      simp only [List.length_map, List.length_tail]
      omega
    rw [← hnotes]
    rw [hlen] at hsome ⊢
    have hanch := (noteLoop_complete_iff inFile s ((fgetc inFile (s : Int)).getD 255) g
      (le_trans hgg hg16) _ 1 0 hbound).mp (by simpa using hsome)
    obtain ⟨as, has⟩ := Option.isSome_iff_exists.mp hanch
    have has1 := earliestAnchors_mono inFile s g g1 hgg _ 0 as has
    refine ⟨⟨hs, ?_⟩, ?_⟩
    · have := (noteLoop_complete_iff inFile s ((fgetc inFile (s : Int)).getD 255) g1 hg16
        _ 1 0 hbound).mpr (by rw [has1]; rfl)
      simpa using this
    · unfold minOffsetsAt
      simp only
      have e1 := noteLoop_minOffsets inFile s ((fgetc inFile (s : Int)).getD 255) g
        (le_trans hgg hg16) _ 1 0 as hbound has
      have e2 := noteLoop_minOffsets inFile s ((fgetc inFile (s : Int)).getD 255) g1 hg16
        _ 1 0 as hbound has1
      simp only [Nat.cast_zero] at e1 e2
      rw [e1, e2]

/-- C20, witness: in the file `[0x40, 0, 0x44, 0x47]` the melody `ceg` is found at
offset 0 with the gap 2, and with the gap 5; the earliest positions are 0, 2, 3. -/
theorem searchParsed_gap_monotone_witness :
    Reported (searchParsed false [0x40, 0, 0x44, 0x47]
        [⟨0, 48, 48⟩, ⟨48, 52, 48⟩, ⟨96, 55, 48⟩] (5 : Nat)).lines 0 ∧
      minOffsetsAt [0x40, 0, 0x44, 0x47] [⟨0, 48, 48⟩, ⟨48, 52, 48⟩, ⟨96, 55, 48⟩] (2 : Nat) 0 =
        minOffsetsAt [0x40, 0, 0x44, 0x47] [⟨0, 48, 48⟩, ⟨48, 52, 48⟩, ⟨96, 55, 48⟩] (5 : Nat) 0 :=
  searchParsed_gap_monotone false [0x40, 0, 0x44, 0x47]
    [⟨0, 48, 48⟩, ⟨48, 52, 48⟩, ⟨96, 55, 48⟩] 2 5 0 (by decide) (by decide) (by decide)
    (by decide) ⟨.full 0 0x40 [0x44, 0x47], by decide, rfl⟩

end MeloSearch
